import Mathlib

/-!
Verification of the originality / AI-tone / humanity quality gate of
`scripts/originality_quality_gate.py`.

The Python module is embedded shallowly:

* Python `str` values are modelled as `List Char` (Python strings are
  sequences of Unicode code points, as are Lean `Char` lists); the
  entry point `evaluate` takes Lean `String`s and converts once.
* Python `float` arithmetic is idealised as exact arithmetic over `ℚ`.
* `math.sqrt` appears only inside `stddev`/`coef_var`, whose results are
  used by `evaluate` solely in order comparisons against positive
  constants; those comparisons are embedded exactly on the squared
  values (`sqrt v < c ↔ v < c²` for `c > 0`, both sides nonnegative).
  The real-valued `stddev`/`coef_var` themselves are defined below with
  `Real.sqrt` and bridged to the squared comparisons.
* `re` usage is embedded per pattern: every pattern in the module is a
  fixed-length sequence of character literals/classes, except the
  enumeration pattern `首先[，,].*其次[，,].*最后[，,]`, which is embedded
  as the chained first-occurrence search it denotes.

All definitions live in namespace `QG`.
-/

namespace QG

/-- Characters matched by Python's `\s` (and removed by `str.strip()`)
for the text domain of this program. -/
def pyIsSpace (c : Char) : Bool :=
  c = ' ' || c = '\t' || c = '\n' || c = '\u000B' || c = '\u000C' || c = '\r' ||
  c = '\u001C' || c = '\u001D' || c = '\u001E' || c = '\u001F' || c = '\u0085' ||
  c = ' ' || c = ' ' || (' ' ≤ c && c ≤ ' ') || c = ' ' ||
  c = ' ' || c = ' ' || c = ' ' || c = '　'

/-- `normalize(text)`: `re.sub(r"\s+", "", text)` — drop all whitespace. -/
def normalize (text : List Char) : List Char :=
  text.filter (fun c => !(pyIsSpace c))

/-- Python `str.strip()`: drop whitespace from both ends. -/
def pyStrip (l : List Char) : List Char :=
  ((l.dropWhile pyIsSpace).reverse.dropWhile pyIsSpace).reverse

/-- The sentence-terminator class `[。！？；.!?;\n]` of `split_sentences`. -/
def isSentenceSep (c : Char) : Bool :=
  c = '。' || c = '！' || c = '？' || c = '；' || c = '.' || c = '!' ||
  c = '?' || c = ';' || c = '\n'

/-- Split a list at every separator character.  `re.split` on a
one-character-class-plus pattern produces exactly the nonempty fragments
this produces, plus empty fragments that every caller filters away. -/
def splitOnSep (p : Char → Bool) : List Char → List (List Char)
  | [] => [[]]
  | c :: rest =>
    if p c then [] :: splitOnSep p rest
    else
      match splitOnSep p rest with
      | f :: fs => (c :: f) :: fs
      | [] => [[c]]

/-- `split_sentences`: split on terminator runs, keep trimmed fragments of
length ≥ 10 characters. -/
def split_sentences (text : List Char) : List (List Char) :=
  ((splitOnSep isSentenceSep text).map pyStrip).filter (fun s => 10 ≤ s.length)

/-- Index of the last `'\n'` in a list, if any. -/
def lastNLIdx : List Char → Option Nat
  | [] => none
  | c :: cs =>
    match lastNLIdx cs with
    | some i => some (i + 1)
    | none => if c = '\n' then some 0 else none

/-- Match of the paragraph separator `\n\s*\n` at the head of `l`
(greedy `\s*`, with the backtracking a regex engine performs): consume a
newline, then whitespace up to and including the last newline inside the
whitespace run.  Returns the remainder after the match. -/
def paraSepMatch (l : List Char) : Option (List Char) :=
  match l with
  | c :: rest =>
    if c = '\n' then
      match lastNLIdx (rest.takeWhile pyIsSpace) with
      | some i => some (rest.drop (i + 1))
      | none => none
    else none
  | [] => none

theorem paraSepMatch_length : ∀ {l rem : List Char},
    paraSepMatch l = some rem → rem.length < l.length := by
  intro l rem h
  cases l with
  | nil => simp [paraSepMatch] at h
  | cons c rest =>
    simp only [paraSepMatch] at h
    split at h
    · split at h
      · injection h with h'
        subst h'
        simp only [List.length_cons, List.length_drop]
        omega
      · exact absurd h (by simp)
    · exact absurd h (by simp)

/-- Fuel-driven scan for `psScan`. -/
def psScanGo : ℕ → List Char → List (List Char)
  | _, [] => [[]]
  | 0, _ :: _ => [[]]
  | fuel + 1, c :: rest =>
    match paraSepMatch (c :: rest) with
    | some rem => [] :: psScanGo fuel rem
    | none =>
      match psScanGo fuel rest with
      | f :: fs => (c :: f) :: fs
      | [] => [[c]]

/-- Scan for `re.split(r"\n\s*\n", ...)`: cut at every (non-overlapping,
leftmost) separator match. -/
def psScan (l : List Char) : List (List Char) :=
  psScanGo l.length l

/-- `split_paragraphs`: split on blank-line runs, keep nonempty stripped
blocks. -/
def split_paragraphs (text : List Char) : List (List Char) :=
  ((psScan text).map pyStrip).filter (fun p => p ≠ [])

/-- `char_ngrams(text, n=5)`: the set of `n`-character windows of the
normalized text; the whole string when shorter than `n`; empty on empty. -/
def char_ngrams (text : List Char) (n : ℕ := 5) : Finset (List Char) :=
  let t := normalize text
  if t.length < n then (if t = [] then ∅ else {t})
  else ((List.range (t.length - n + 1)).map (fun i => (t.drop i).take n)).toFinset

/-- `jaccard(a, b)`: Jaccard similarity of two n-gram sets. -/
def jaccard (a b : Finset (List Char)) : ℚ :=
  if a = ∅ ∨ b = ∅ then 0
  else
    let union := (a ∪ b).card
    if union = 0 then 0 else ((a ∩ b).card : ℚ) / union

/-- Round-half-to-even to an integer (Python `round`'s tie rule). -/
def roundHalfEven (y : ℚ) : ℤ :=
  if y - ⌊y⌋ < 1 / 2 then ⌊y⌋
  else if 1 / 2 < y - ⌊y⌋ then ⌊y⌋ + 1
  else if Even ⌊y⌋ then ⌊y⌋ else ⌊y⌋ + 1

/-- Python `round(x, k)` idealised over `ℚ`. -/
def pyRound (k : ℕ) (x : ℚ) : ℚ :=
  (roundHalfEven (x * 10 ^ k) : ℚ) / 10 ^ k

/-- `max(0.0, min(100.0, x))` — the clamp applied to all three scores. -/
def clamp100 (x : ℚ) : ℚ := max 0 (min 100 x)

theorem clamp100_nonneg (x : ℚ) : 0 ≤ clamp100 x := le_max_left 0 _

theorem clamp100_le_100 (x : ℚ) : clamp100 x ≤ 100 :=
  max_le (by norm_num) (min_le_left 100 x)

theorem clamp100_le_of_le {x b : ℚ} (hb : 0 ≤ b) (h : x ≤ b) : clamp100 x ≤ b :=
  max_le hb (le_trans (min_le_right 100 x) h)

theorem roundHalfEven_mem (y : ℚ) :
    roundHalfEven y = ⌊y⌋ ∨ roundHalfEven y = ⌊y⌋ + 1 := by
  unfold roundHalfEven
  split
  · exact Or.inl rfl
  · split
    · exact Or.inr rfl
    · split
      · exact Or.inl rfl
      · exact Or.inr rfl

theorem roundHalfEven_nonneg {y : ℚ} (hy : 0 ≤ y) : 0 ≤ roundHalfEven y := by
  rcases roundHalfEven_mem y with h | h <;> rw [h]
  · exact Int.le_floor.mpr (by exact_mod_cast hy)
  · have : (0 : ℤ) ≤ ⌊y⌋ := Int.le_floor.mpr (by exact_mod_cast hy)
    omega

theorem roundHalfEven_le {y : ℚ} {N : ℤ} (hy : y ≤ N) : roundHalfEven y ≤ N := by
  rcases roundHalfEven_mem y with h | h <;> rw [h]
  · exact le_trans (Int.floor_le_floor hy) (by simp)
  · by_cases hfl : ⌊y⌋ = N
    · -- here y = N exactly, so the fractional part is 0 and rounding is exact
      have hyN : y = (N : ℚ) := le_antisymm hy (by rw [← hfl]; exact Int.floor_le y)
      have hf : y - (⌊y⌋ : ℚ) < 1 / 2 := by
        rw [hyN]
        norm_num
      unfold roundHalfEven at h
      rw [if_pos hf] at h
      omega
    · have : ⌊y⌋ ≤ N := le_trans (Int.floor_le_floor hy) (by simp)
      omega

theorem pyRound_nonneg {k : ℕ} {x : ℚ} (hx : 0 ≤ x) : 0 ≤ pyRound k x := by
  unfold pyRound
  apply div_nonneg _ (by positivity)
  exact_mod_cast roundHalfEven_nonneg (by positivity)

theorem pyRound_le {k : ℕ} {x : ℚ} {N : ℤ} (hx : x ≤ N) : pyRound k x ≤ N := by
  unfold pyRound
  rw [div_le_iff₀ (by positivity)]
  have h1 : x * 10 ^ k ≤ (N : ℚ) * 10 ^ k :=
    mul_le_mul_of_nonneg_right hx (by positivity)
  have h2 : roundHalfEven (x * 10 ^ k) ≤ N * 10 ^ k := by
    apply roundHalfEven_le
    exact_mod_cast h1
  exact_mod_cast h2

/-! ## `difflib.SequenceMatcher` (over characters, `isjunk=None`, autojunk on)

`find_longest_match` is embedded declaratively: its DP keeps the first
(in `i`-then-`j` scan order) run of maximal length among runs of equal
characters at non-junk positions of `b`, then widens the winner first by
equal non-junk characters and then by equal junk characters on both
ends.  `get_matching_blocks` recurses on the two sides of that block;
`ratio` is `2·matches/(len(a)+len(b))`, and `1.0` when both are empty. -/

/-- Length of the run of equal characters at the heads of the two lists,
restricted to non-junk positions of the second (`b`) side. -/
def runLen (junk : Char → Bool) : List Char → List Char → Nat
  | x :: xs, y :: ys =>
    if x = y ∧ junk y = false then runLen junk xs ys + 1 else 0
  | _, _ => 0

/-- Like `runLen` but over junk positions only (the widening loops of
`find_longest_match` that absorb adjacent junk). -/
def runLenJ (junk : Char → Bool) : List Char → List Char → Nat
  | x :: xs, y :: ys =>
    if x = y ∧ junk y = true then runLenJ junk xs ys + 1 else 0
  | _, _ => 0

theorem runLen_le (junk : Char → Bool) :
    ∀ xs ys, runLen junk xs ys ≤ min xs.length ys.length := by
  intro xs
  induction xs with
  | nil => intro ys; simp [runLen]
  | cons x xs ih =>
    intro ys
    cases ys with
    | nil => simp [runLen]
    | cons y ys =>
      simp only [runLen]
      split
      · have := ih ys
        simp only [List.length_cons]
        omega
      · simp

theorem runLenJ_le (junk : Char → Bool) :
    ∀ xs ys, runLenJ junk xs ys ≤ min xs.length ys.length := by
  intro xs
  induction xs with
  | nil => intro ys; simp [runLenJ]
  | cons x xs ih =>
    intro ys
    cases ys with
    | nil => simp [runLenJ]
    | cons y ys =>
      simp only [runLenJ]
      split
      · have := ih ys
        simp only [List.length_cons]
        omega
      · simp

theorem runLen_self (junk : Char → Bool) :
    ∀ xs, (∀ c ∈ xs, junk c = false) → runLen junk xs xs = xs.length := by
  intro xs
  induction xs with
  | nil => intro _; simp [runLen]
  | cons x xs ih =>
    intro h
    have hx : junk x = false := h x (by simp)
    have hxs := ih (fun c hc => h c (by simp [hc]))
    simp [runLen, hx, hxs]

/-- One DP step of `find_longest_match`: replace the current best block
only by a strictly longer run (difflib keeps the earliest best). -/
def flmStep (a b : List Char) (junk : Char → Bool) (best : ℕ × ℕ × ℕ)
    (ij : ℕ × ℕ) : ℕ × ℕ × ℕ :=
  if best.2.2 < runLen junk (a.drop ij.1) (b.drop ij.2) then
    (ij.1, ij.2, runLen junk (a.drop ij.1) (b.drop ij.2))
  else best

/-- All candidate start pairs in the DP's `i`-then-`j` scan order. -/
def flmPairs (a b : List Char) : List (ℕ × ℕ) :=
  (List.range a.length).flatMap fun i => (List.range b.length).map fun j => (i, j)

/-- The best (longest, earliest) run of equal characters at non-junk
`b`-positions — the DP phase of `find_longest_match`. -/
def flmBest (a b : List Char) (junk : Char → Bool) : ℕ × ℕ × ℕ :=
  (flmPairs a b).foldl (flmStep a b junk) (0, 0, 0)

/-- `find_longest_match(a, b)` over the whole ranges: DP winner widened
by equal non-junk then equal junk characters on both ends. -/
def find_longest_match (a b : List Char) (junk : Char → Bool) : ℕ × ℕ × ℕ :=
  let best := flmBest a b junk
  let i := best.1
  let j := best.2.1
  let k := best.2.2
  let lNJ := runLen junk ((a.take i).reverse) ((b.take j).reverse)
  let i1 := i - lNJ
  let j1 := j - lNJ
  let k1 := k + lNJ
  let rNJ := runLen junk (a.drop (i1 + k1)) (b.drop (j1 + k1))
  let k2 := k1 + rNJ
  let lJ := runLenJ junk ((a.take i1).reverse) ((b.take j1).reverse)
  let i2 := i1 - lJ
  let j2 := j1 - lJ
  let k3 := k2 + lJ
  let rJ := runLenJ junk (a.drop (i2 + k3)) (b.drop (j2 + k3))
  (i2, j2, k3 + rJ)

/-- A block `(i, j, k)` stays inside both sequences. -/
def blockOk (a b : List Char) (m : ℕ × ℕ × ℕ) : Prop :=
  m.1 + m.2.2 ≤ a.length ∧ m.2.1 + m.2.2 ≤ b.length

theorem flmBest_ok (a b : List Char) (junk : Char → Bool) :
    blockOk a b (flmBest a b junk) := by
  unfold flmBest
  have hmem : ∀ ij ∈ flmPairs a b, ij.1 < a.length ∧ ij.2 < b.length := by
    intro ij hij
    unfold flmPairs at hij
    simp only [List.mem_flatMap, List.mem_map, List.mem_range] at hij
    obtain ⟨i, hi, j, hj, rfl⟩ := hij
    exact ⟨hi, hj⟩
  have : ∀ (l : List (ℕ × ℕ)), (∀ ij ∈ l, ij.1 < a.length ∧ ij.2 < b.length) →
      ∀ s, blockOk a b s → blockOk a b (l.foldl (flmStep a b junk) s) := by
    intro l
    induction l with
    | nil => intro _ s hs; exact hs
    | cons x xs ih =>
      intro hl s hs
      simp only [List.foldl_cons]
      apply ih (fun ij hij => hl ij (by simp [hij]))
      unfold flmStep
      split
      · have hx := hl x (by simp)
        have hk := runLen_le junk (a.drop x.1) (b.drop x.2)
        simp only [List.length_drop] at hk
        have hmin1 := min_le_left (a.length - x.1) (b.length - x.2)
        have hmin2 := min_le_right (a.length - x.1) (b.length - x.2)
        refine ⟨?_, ?_⟩
        · show x.1 + runLen junk (a.drop x.1) (b.drop x.2) ≤ a.length
          omega
        · show x.2 + runLen junk (a.drop x.1) (b.drop x.2) ≤ b.length
          omega
      · exact hs
  exact this _ hmem _ ⟨by simp [blockOk], by simp [blockOk]⟩

theorem flm_ok (a b : List Char) (junk : Char → Bool) :
    blockOk a b (find_longest_match a b junk) := by
  have h0 := flmBest_ok a b junk
  unfold find_longest_match
  obtain ⟨h1, h2⟩ := h0
  set i := (flmBest a b junk).1 with hi
  set j := (flmBest a b junk).2.1 with hj
  set k := (flmBest a b junk).2.2 with hk
  simp only [blockOk]
  have hlNJ := runLen_le junk ((a.take i).reverse) ((b.take j).reverse)
  have hrNJ := runLen_le junk
    (a.drop (i - runLen junk ((a.take i).reverse) ((b.take j).reverse) +
      (k + runLen junk ((a.take i).reverse) ((b.take j).reverse))))
    (b.drop (j - runLen junk ((a.take i).reverse) ((b.take j).reverse) +
      (k + runLen junk ((a.take i).reverse) ((b.take j).reverse))))
  simp only [List.length_reverse, List.length_take, List.length_drop] at hlNJ hrNJ
  set lNJ := runLen junk ((a.take i).reverse) ((b.take j).reverse) with hlnj
  set i1 := i - lNJ with hi1
  set j1 := j - lNJ with hj1
  set k1 := k + lNJ with hk1
  set rNJ := runLen junk (a.drop (i1 + k1)) (b.drop (j1 + k1)) with hrnj
  set k2 := k1 + rNJ with hk2
  have hlJ := runLenJ_le junk ((a.take i1).reverse) ((b.take j1).reverse)
  simp only [List.length_reverse, List.length_take] at hlJ
  set lJ := runLenJ junk ((a.take i1).reverse) ((b.take j1).reverse) with hlj
  set i2 := i1 - lJ with hi2
  set j2 := j1 - lJ with hj2
  set k3 := k2 + lJ with hk3
  have hrJ := runLenJ_le junk (a.drop (i2 + k3)) (b.drop (j2 + k3))
  simp only [List.length_drop] at hrJ
  set rJ := runLenJ junk (a.drop (i2 + k3)) (b.drop (j2 + k3)) with hrj
  constructor <;> omega

/-- Fuel-driven core of `get_matching_blocks`' total match count: the
fuel (any bound on `len(a)+len(b)`) only drives structural recursion. -/
def matchesTotalGo (junk : Char → Bool) : ℕ → List Char → List Char → ℕ
  | 0, _, _ => 0
  | fuel + 1, a, b =>
    if (find_longest_match a b junk).2.2 = 0 then 0
    else
      matchesTotalGo junk fuel (a.take (find_longest_match a b junk).1)
          (b.take (find_longest_match a b junk).2.1) +
        (find_longest_match a b junk).2.2 +
        matchesTotalGo junk fuel
          (a.drop ((find_longest_match a b junk).1 + (find_longest_match a b junk).2.2))
          (b.drop ((find_longest_match a b junk).2.1 + (find_longest_match a b junk).2.2))

/-- Total matched characters of `get_matching_blocks`: recurse on both
sides of the longest match.  The junk predicate is fixed from the
original second sequence, as difflib computes it once in `set_seq2`. -/
def matchesTotal (junk : Char → Bool) (a b : List Char) : ℕ :=
  matchesTotalGo junk (a.length + b.length) a b

theorem matchesTotalGo_congr (junk : Char → Bool) :
    ∀ n f g (a b : List Char), a.length + b.length ≤ f → a.length + b.length ≤ g →
      f ≤ n → g ≤ n → matchesTotalGo junk f a b = matchesTotalGo junk g a b := by
  intro n
  induction n with
  | zero =>
    intro f g a b hf hg hfn hgn
    have : f = 0 := by omega
    have : g = 0 := by omega
    subst_vars
    rfl
  | succ n ih =>
    intro f g a b hf hg hfn hgn
    match f, g with
    | 0, 0 => rfl
    | 0, g + 1 =>
      have ha : a = [] := List.eq_nil_of_length_eq_zero (by omega)
      have hb : b = [] := List.eq_nil_of_length_eq_zero (by omega)
      subst_vars
      have hk : (find_longest_match [] [] junk).2.2 = 0 := by
        have := (flm_ok [] [] junk).1
        simp only [List.length_nil] at this
        omega
      simp only [matchesTotalGo]
      rw [if_pos hk]
    | f + 1, 0 =>
      have ha : a = [] := List.eq_nil_of_length_eq_zero (by omega)
      have hb : b = [] := List.eq_nil_of_length_eq_zero (by omega)
      subst_vars
      have hk : (find_longest_match [] [] junk).2.2 = 0 := by
        have := (flm_ok [] [] junk).1
        simp only [List.length_nil] at this
        omega
      simp only [matchesTotalGo]
      rw [if_pos hk]
    | f + 1, g + 1 =>
      simp only [matchesTotalGo]
      by_cases hk : (find_longest_match a b junk).2.2 = 0
      · simp [hk]
      · rw [if_neg hk, if_neg hk]
        obtain ⟨h1, h2⟩ := flm_ok a b junk
        have hL : (a.take (find_longest_match a b junk).1).length +
            (b.take (find_longest_match a b junk).2.1).length ≤
            a.length + b.length - 1 := by
          simp only [List.length_take]
          have := min_le_left (find_longest_match a b junk).1 a.length
          have := min_le_right (find_longest_match a b junk).2.1 b.length
          omega
        have hR : (a.drop ((find_longest_match a b junk).1 + (find_longest_match a b junk).2.2)).length +
            (b.drop ((find_longest_match a b junk).2.1 + (find_longest_match a b junk).2.2)).length ≤
            a.length + b.length - 1 := by
          simp only [List.length_drop]
          omega
        rw [ih f g _ _ (by omega) (by omega) (by omega) (by omega),
          ih f g _ _ (by omega) (by omega) (by omega) (by omega)]

theorem matchesTotal_eq (junk : Char → Bool) (a b : List Char) :
    matchesTotal junk a b =
      if (find_longest_match a b junk).2.2 = 0 then 0
      else
        matchesTotal junk (a.take (find_longest_match a b junk).1)
            (b.take (find_longest_match a b junk).2.1) +
          (find_longest_match a b junk).2.2 +
          matchesTotal junk
            (a.drop ((find_longest_match a b junk).1 + (find_longest_match a b junk).2.2))
            (b.drop ((find_longest_match a b junk).2.1 + (find_longest_match a b junk).2.2)) := by
  have hstep : matchesTotal junk a b =
      matchesTotalGo junk (a.length + b.length + 1) a b := by
    unfold matchesTotal
    exact matchesTotalGo_congr junk (a.length + b.length + 1) _ _ a b le_rfl
      (by omega) (by omega) le_rfl
  rw [hstep]
  simp only [matchesTotalGo]
  by_cases hk : (find_longest_match a b junk).2.2 = 0
  · rw [if_pos hk, if_pos hk]
  · rw [if_neg hk, if_neg hk]
    have hL : (a.take (find_longest_match a b junk).1).length +
        (b.take (find_longest_match a b junk).2.1).length ≤ a.length + b.length := by
      simp only [List.length_take]
      have := min_le_right (find_longest_match a b junk).1 a.length
      have := min_le_right (find_longest_match a b junk).2.1 b.length
      omega
    have hR : (a.drop ((find_longest_match a b junk).1 + (find_longest_match a b junk).2.2)).length +
        (b.drop ((find_longest_match a b junk).2.1 + (find_longest_match a b junk).2.2)).length ≤
        a.length + b.length := by
      simp only [List.length_drop]
      omega
    unfold matchesTotal
    rw [matchesTotalGo_congr junk (a.length + b.length) (a.length + b.length) _ _ _
        hL le_rfl le_rfl hL,
      matchesTotalGo_congr junk (a.length + b.length) (a.length + b.length) _ _ _
        hR le_rfl le_rfl hR]

theorem matchesTotal_le (junk : Char → Bool) :
    ∀ n (a b : List Char), a.length + b.length ≤ n →
      matchesTotal junk a b ≤ min a.length b.length := by
  intro n
  induction n with
  | zero =>
    intro a b hab
    have ha : a = [] := List.eq_nil_of_length_eq_zero (by omega)
    subst ha
    rw [matchesTotal_eq]
    have : (find_longest_match [] b junk).2.2 = 0 := by
      have := (flm_ok [] b junk).1
      simp only [List.length_nil] at this
      omega
    simp [this]
  | succ n ih =>
    intro a b hab
    rw [matchesTotal_eq]
    split
    · simp
    · next hk =>
      obtain ⟨h1, h2⟩ := flm_ok a b junk
      set i := (find_longest_match a b junk).1 with hidef
      set j := (find_longest_match a b junk).2.1 with hjdef
      set k := (find_longest_match a b junk).2.2 with hkdef
      have hL := ih (a.take i) (b.take j) (by
        simp only [List.length_take]
        have := min_le_left i a.length
        have := min_le_left j b.length
        omega)
      have hR := ih (a.drop (i + k)) (b.drop (j + k)) (by
        simp only [List.length_drop]
        omega)
      simp only [List.length_take, List.length_drop] at hL hR
      have hia : min i a.length = i := min_eq_left (by omega)
      have hjb : min j b.length = j := min_eq_left (by omega)
      rw [hia, hjb] at hL
      have hLa := le_trans hL (min_le_left i j)
      have hLb := le_trans hL (min_le_right i j)
      have hRa := le_trans hR (min_le_left (a.length - (i + k)) (b.length - (j + k)))
      have hRb := le_trans hR (min_le_right (a.length - (i + k)) (b.length - (j + k)))
      have hga : matchesTotal junk (a.take i) (b.take j) + k +
          matchesTotal junk (a.drop (i + k)) (b.drop (j + k)) ≤ a.length := by omega
      have hgb : matchesTotal junk (a.take i) (b.take j) + k +
          matchesTotal junk (a.drop (i + k)) (b.drop (j + k)) ≤ b.length := by omega
      exact le_min hga hgb

/-- Autojunk: when the second sequence has at least 200 elements, its
"popular" characters (count exceeding `len//100 + 1`) are junk. -/
def pyJunk (b : List Char) : Char → Bool :=
  fun c => decide (200 ≤ b.length) && decide (b.length / 100 + 1 < b.count c)

/-- `SequenceMatcher(None, a, b).ratio()`: `2·M/T`, `1.0` when `T = 0`. -/
def sm_ratio (a b : List Char) : ℚ :=
  if a.length + b.length = 0 then 1
  else 2 * (matchesTotal (pyJunk b) a b : ℚ) / (a.length + b.length)

theorem sm_ratio_nonneg (a b : List Char) : 0 ≤ sm_ratio a b := by
  unfold sm_ratio
  split
  · norm_num
  · exact div_nonneg (by positivity) (by positivity)

theorem foldl_flmStep_fixed (a b : List Char) (junk : Char → Bool) :
    ∀ (l : List (ℕ × ℕ)) (s : ℕ × ℕ × ℕ),
      (∀ ij ∈ l, runLen junk (a.drop ij.1) (b.drop ij.2) ≤ s.2.2) →
      l.foldl (flmStep a b junk) s = s := by
  intro l
  induction l with
  | nil => intro s _; rfl
  | cons x xs ih =>
    intro s hs
    simp only [List.foldl_cons]
    have hx : flmStep a b junk s x = s := by
      unfold flmStep
      rw [if_neg (by have := hs x (by simp); omega)]
    rw [hx]
    exact ih s (fun ij hij => hs ij (by simp [hij]))

theorem flmBest_self (a : List Char) (junk : Char → Bool) (ha : a ≠ [])
    (hj : ∀ c ∈ a, junk c = false) : flmBest a a junk = (0, 0, a.length) := by
  obtain ⟨n, hn⟩ : ∃ n, a.length = n + 1 := by
    cases hl : a.length with
    | zero => exact absurd (List.eq_nil_of_length_eq_zero hl) ha
    | succ n => exact ⟨n, rfl⟩
  have hr : runLen junk a a = a.length := runLen_self junk a hj
  obtain ⟨rest, hpairs⟩ : ∃ rest, flmPairs a a = (0, 0) :: rest := by
    unfold flmPairs
    rw [hn, List.range_succ_eq_map]
    simp only [List.flatMap_cons, List.map_cons, List.cons_append]
    exact ⟨_, rfl⟩
  unfold flmBest
  rw [hpairs]
  simp only [List.foldl_cons]
  have hstep : flmStep a a junk (0, 0, 0) (0, 0) = (0, 0, a.length) := by
    unfold flmStep
    simp only [List.drop_zero, hr]
    rw [if_pos (by omega)]
  rw [hstep]
  apply foldl_flmStep_fixed
  intro ij _
  have := runLen_le junk (a.drop ij.1) (a.drop ij.2)
  simp only [List.length_drop] at this
  have h1 := min_le_left (a.length - ij.1) (a.length - ij.2)
  show runLen junk (a.drop ij.1) (a.drop ij.2) ≤ a.length
  omega

theorem flm_self (a : List Char) (junk : Char → Bool) (ha : a ≠ [])
    (hj : ∀ c ∈ a, junk c = false) :
    find_longest_match a a junk = (0, 0, a.length) := by
  unfold find_longest_match
  rw [flmBest_self a junk ha hj]
  simp [runLen, runLenJ]

theorem matchesTotal_nil_left (junk : Char → Bool) (b : List Char) :
    matchesTotal junk [] b = 0 := by
  rw [matchesTotal_eq]
  have : (find_longest_match [] b junk).2.2 = 0 := by
    have := (flm_ok [] b junk).1
    simp only [List.length_nil] at this
    omega
  simp [this]

theorem matchesTotal_self (a : List Char) (junk : Char → Bool) (ha : a ≠ [])
    (hj : ∀ c ∈ a, junk c = false) : matchesTotal junk a a = a.length := by
  rw [matchesTotal_eq, flm_self a junk ha hj]
  have hlen : a.length ≠ 0 := fun h => ha (List.eq_nil_of_length_eq_zero h)
  simp only [if_neg hlen, List.take_zero, List.drop_length, Nat.zero_add]
  rw [matchesTotal_nil_left]
  omega

theorem pyJunk_short {b : List Char} (hb : b.length < 200) (c : Char) :
    pyJunk b c = false := by
  unfold pyJunk
  simp only [Bool.and_eq_false_iff, decide_eq_false_iff_not]
  left
  omega

/-- For strings shorter than the autojunk cutoff, comparing any string
with itself gives ratio exactly 1. -/
theorem sm_ratio_self {a : List Char} (ha : a ≠ []) (hlen : a.length < 200) :
    sm_ratio a a = 1 := by
  unfold sm_ratio
  have hlz : a.length ≠ 0 := fun h => ha (List.eq_nil_of_length_eq_zero h)
  rw [if_neg (by omega)]
  rw [matchesTotal_self a (pyJunk a) ha (fun c _ => pyJunk_short hlen c)]
  have hposQ : (0 : ℚ) < (a.length : ℚ) := by
    exact_mod_cast Nat.pos_of_ne_zero hlz
  have hne : ((a.length : ℚ) + (a.length : ℚ)) ≠ 0 := by
    apply ne_of_gt
    linarith
  field_simp
  ring

/-- Two empty sequences compare at ratio 1 (difflib's zero-length rule). -/
theorem sm_ratio_nil_nil : sm_ratio [] [] = 1 := by
  unfold sm_ratio
  simp

theorem runLen_le_left_self (junk : Char → Bool) :
    ∀ xs ys, runLen junk xs ys ≤ runLen junk xs xs := by
  intro xs
  induction xs with
  | nil => intro ys; simp [runLen]
  | cons x xs ih =>
    intro ys
    cases ys with
    | nil => simp [runLen]
    | cons y ys =>
      by_cases h : x = y ∧ junk y = false
      · obtain ⟨hxy, hj⟩ := h
        subst hxy
        have h1 : runLen junk (x :: xs) (x :: ys) = runLen junk xs ys + 1 := by
          simp [runLen, hj]
        have h2 : runLen junk (x :: xs) (x :: xs) = runLen junk xs xs + 1 := by
          simp [runLen, hj]
        rw [h1, h2]
        have := ih ys
        omega
      · have h1 : runLen junk (x :: xs) (y :: ys) = 0 := by
          simp only [runLen]
          rw [if_neg h]
        rw [h1]
        omega

theorem runLen_le_right_self (junk : Char → Bool) :
    ∀ xs ys, runLen junk xs ys ≤ runLen junk ys ys := by
  intro xs
  induction xs with
  | nil => intro ys; simp [runLen]
  | cons x xs ih =>
    intro ys
    cases ys with
    | nil => simp [runLen]
    | cons y ys =>
      by_cases h : x = y ∧ junk y = false
      · obtain ⟨hxy, hj⟩ := h
        subst hxy
        have h1 : runLen junk (x :: xs) (x :: ys) = runLen junk xs ys + 1 := by
          simp [runLen, hj]
        have h2 : runLen junk (x :: ys) (x :: ys) = runLen junk ys ys + 1 := by
          simp [runLen, hj]
        rw [h1, h2]
        have := ih ys
        omega
      · have h1 : runLen junk (x :: xs) (y :: ys) = 0 := by
          simp only [runLen]
          rw [if_neg h]
        rw [h1]
        omega

theorem foldl_flmStep_ub (a b : List Char) (junk : Char → Bool) :
    ∀ (l : List (ℕ × ℕ)) (s : ℕ × ℕ × ℕ),
      s.2.2 ≤ (l.foldl (flmStep a b junk) s).2.2 ∧
      ∀ c ∈ l, runLen junk (a.drop c.1) (b.drop c.2) ≤
        (l.foldl (flmStep a b junk) s).2.2 := by
  intro l
  induction l with
  | nil => intro s; exact ⟨le_refl _, by simp⟩
  | cons x xs ih =>
    intro s
    simp only [List.foldl_cons]
    by_cases hx : s.2.2 < runLen junk (a.drop x.1) (b.drop x.2)
    · have hstep : flmStep a b junk s x = (x.1, x.2, runLen junk (a.drop x.1) (b.drop x.2)) := by
        unfold flmStep
        rw [if_pos hx]
      rw [hstep]
      obtain ⟨h1, h2⟩ := ih (x.1, x.2, runLen junk (a.drop x.1) (b.drop x.2))
      refine ⟨le_trans (le_of_lt hx) h1, ?_⟩
      intro c hc
      rcases List.mem_cons.mp hc with rfl | hc
      · exact h1
      · exact h2 c hc
    · have hstep : flmStep a b junk s x = s := by
        unfold flmStep
        rw [if_neg hx]
      rw [hstep]
      obtain ⟨h1, h2⟩ := ih s
      refine ⟨h1, ?_⟩
      intro c hc
      rcases List.mem_cons.mp hc with rfl | hc
      · omega
      · exact h2 c hc

/-- The fold either keeps its seed or lands on some candidate that
strictly beats the seed and every candidate before it (difflib's DP
keeps the earliest best run). -/
theorem foldl_flmStep_shape (a b : List Char) (junk : Char → Bool) :
    ∀ (l : List (ℕ × ℕ)) (s : ℕ × ℕ × ℕ),
      l.foldl (flmStep a b junk) s = s ∨
      ∃ l1 c l2, l = l1 ++ c :: l2 ∧
        l.foldl (flmStep a b junk) s =
          (c.1, c.2, runLen junk (a.drop c.1) (b.drop c.2)) ∧
        s.2.2 < runLen junk (a.drop c.1) (b.drop c.2) ∧
        ∀ d ∈ l1, runLen junk (a.drop d.1) (b.drop d.2) <
          runLen junk (a.drop c.1) (b.drop c.2) := by
  intro l
  induction l with
  | nil => intro s; exact Or.inl rfl
  | cons x xs ih =>
    intro s
    simp only [List.foldl_cons]
    by_cases hx : s.2.2 < runLen junk (a.drop x.1) (b.drop x.2)
    · have hstep : flmStep a b junk s x = (x.1, x.2, runLen junk (a.drop x.1) (b.drop x.2)) := by
        unfold flmStep
        rw [if_pos hx]
      rw [hstep]
      rcases ih (x.1, x.2, runLen junk (a.drop x.1) (b.drop x.2)) with h | ⟨l1, c, l2, hsplit, hval, hlt, hbefore⟩
      · right
        exact ⟨[], x, xs, by simp, h, hx, by simp⟩
      · right
        refine ⟨x :: l1, c, l2, by simp [hsplit], hval, lt_trans hx hlt, ?_⟩
        intro d hd
        rcases List.mem_cons.mp hd with rfl | hd
        · exact hlt
        · exact hbefore d hd
    · have hstep : flmStep a b junk s x = s := by
        unfold flmStep
        rw [if_neg hx]
      rw [hstep]
      rcases ih s with h | ⟨l1, c, l2, hsplit, hval, hlt, hbefore⟩
      · exact Or.inl h
      · right
        refine ⟨x :: l1, c, l2, by simp [hsplit], hval, hlt, ?_⟩
        intro d hd
        rcases List.mem_cons.mp hd with rfl | hd
        · omega
        · exact hbefore d hd

/-- Strict lexicographic order on candidate pairs: the DP scan order. -/
def pairLt (p q : ℕ × ℕ) : Prop := p.1 < q.1 ∨ (p.1 = q.1 ∧ p.2 < q.2)

theorem pairwise_flatMap {α β : Type} (R : β → β → Prop) (f : α → List β) :
    ∀ (l : List α),
      l.Pairwise (fun x y => ∀ u ∈ f x, ∀ v ∈ f y, R u v) →
      (∀ x ∈ l, (f x).Pairwise R) → (l.flatMap f).Pairwise R := by
  intro l
  induction l with
  | nil => intro _ _; simp
  | cons x xs ih =>
    intro hcross hin
    simp only [List.flatMap_cons]
    rw [List.pairwise_append]
    refine ⟨hin x (by simp), ih (List.Pairwise.of_cons hcross) (fun y hy => hin y (by simp [hy])), ?_⟩
    intro u hu v hv
    obtain ⟨y, hy, hvy⟩ := List.mem_flatMap.mp hv
    exact (List.rel_of_pairwise_cons hcross hy) u hu v hvy

theorem flmPairs_pairwise (a b : List Char) : (flmPairs a b).Pairwise pairLt := by
  unfold flmPairs
  apply pairwise_flatMap
  · have := List.pairwise_lt_range a.length
    apply List.Pairwise.imp_of_mem ?_ this
    intro i i' _ _ hii
    intro u hu v hv
    obtain ⟨j, _, rfl⟩ := List.mem_map.mp hu
    obtain ⟨j', _, rfl⟩ := List.mem_map.mp hv
    exact Or.inl hii
  · intro i _
    rw [List.pairwise_map]
    have := List.pairwise_lt_range b.length
    apply List.Pairwise.imp_of_mem ?_ this
    intro j j' _ _ hjj
    exact Or.inr ⟨rfl, hjj⟩

theorem flmPairs_mem {a b : List Char} {i j : ℕ}
    (hi : i < a.length) (hj : j < b.length) : (i, j) ∈ flmPairs a b := by
  unfold flmPairs
  simp only [List.mem_flatMap, List.mem_map, List.mem_range]
  exact ⟨i, hi, j, hj, rfl⟩

/-- On a pair of identical sequences the DP winner lies on the diagonal. -/
theorem flmBest_self_diag (a : List Char) (junk : Char → Bool) :
    ∃ i k, flmBest a a junk = (i, i, k) := by
  rcases foldl_flmStep_shape a a junk (flmPairs a a) (0, 0, 0) with h | ⟨l1, c, l2, hsplit, hval, _, hbefore⟩
  · exact ⟨0, 0, h⟩
  · -- the winner c must be diagonal: otherwise the diagonal pair at
    -- min(c.1, c.2) is scanned earlier and its run is at least as long
    have hcmem : c ∈ flmPairs a a := by
      rw [hsplit]
      simp
    have hc1 : c.1 < a.length ∧ c.2 < a.length := by
      unfold flmPairs at hcmem
      simp only [List.mem_flatMap, List.mem_map, List.mem_range] at hcmem
      obtain ⟨i, hi, j, hj, hcij⟩ := hcmem
      rw [← hcij]
      exact ⟨hi, hj⟩
    by_cases hdiag : c.1 = c.2
    · exact ⟨c.1, _, by rw [show flmBest a a junk = _ from hval, hdiag]⟩
    · exfalso
      set d : ℕ × ℕ := (min c.1 c.2, min c.1 c.2) with hd
      have hdmem : d ∈ flmPairs a a :=
        flmPairs_mem (by omega) (by omega)
      have hdlt : pairLt d c := by
        unfold pairLt
        simp only [hd]
        omega
      have hdrun : runLen junk (a.drop c.1) (a.drop c.2) ≤
          runLen junk (a.drop d.1) (a.drop d.2) := by
        simp only [hd]
        rcases Nat.lt_or_ge c.1 c.2 with hlt | hge
        · rw [min_eq_left (by omega)]
          exact runLen_le_left_self junk (a.drop c.1) (a.drop c.2)
        · rw [min_eq_right (by omega)]
          exact runLen_le_right_self junk (a.drop c.1) (a.drop c.2)
      -- d sits either before c (contradicting maximality) or after c
      -- (contradicting the scan order)
      rw [hsplit] at hdmem
      rcases List.mem_append.mp hdmem with hd1 | hd2
      · exact absurd hdrun (by have := hbefore d hd1; omega)
      · rcases List.mem_cons.mp hd2 with hdc | hd2
        · apply hdiag
          have hmc : (min c.1 c.2, min c.1 c.2) = c := by rw [← hd, hdc]
          have h1 := congrArg Prod.fst hmc
          have h2 := congrArg Prod.snd hmc
          simp only at h1 h2
          omega
        · have hpw := flmPairs_pairwise a a
          rw [hsplit] at hpw
          have := (List.pairwise_append.mp hpw).2.1
          have hcd : pairLt c d := List.rel_of_pairwise_cons this hd2
          unfold pairLt at hcd hdlt
          omega

/-- On identical sequences `find_longest_match` returns a diagonal block. -/
theorem flm_self_diag (a : List Char) (junk : Char → Bool) :
    ∃ i k, find_longest_match a a junk = (i, i, k) := by
  obtain ⟨i, k, hbest⟩ := flmBest_self_diag a junk
  unfold find_longest_match
  rw [hbest]
  exact ⟨_, _, rfl⟩

/-- The widening loops only ever enlarge the DP winner. -/
theorem flm_k_ge (a b : List Char) (junk : Char → Bool) :
    (flmBest a b junk).2.2 ≤ (find_longest_match a b junk).2.2 := by
  unfold find_longest_match
  simp only
  omega

/-- On identical nonempty sequences `find_longest_match` finds a
nonempty block: a non-junk character seeds the DP, and an all-junk head
is swallowed by the junk-widening loop. -/
theorem flm_self_pos (a : List Char) (junk : Char → Bool) (ha : a ≠ []) :
    (find_longest_match a a junk).2.2 ≠ 0 := by
  obtain ⟨x, rest, rfl⟩ := List.exists_cons_of_ne_nil ha
  by_cases hj : junk x = true
  · -- all-junk head: if the DP found nothing, junk widening finds x
    by_cases hb : (flmBest (x :: rest) (x :: rest) junk).2.2 = 0
    · have hb0 : flmBest (x :: rest) (x :: rest) junk = (0, 0, 0) := by
        rcases foldl_flmStep_shape (x :: rest) (x :: rest) junk
          (flmPairs (x :: rest) (x :: rest)) (0, 0, 0) with hs | ⟨l1, c, l2, _, hval, hlt, _⟩
        · unfold flmBest
          exact hs
        · exfalso
          unfold flmBest at hb
          rw [hval] at hb
          simp only at hb hlt
          omega
      have hrn : runLen junk (x :: rest) (x :: rest) = 0 := by
        simp [runLen, hj]
      have hrj : runLenJ junk (x :: rest) (x :: rest) ≠ 0 := by
        simp [runLenJ, hj]
      unfold find_longest_match
      rw [hb0]
      simp only [List.take_zero, List.reverse_nil, List.drop_zero,
        Nat.zero_add, Nat.add_zero, Nat.sub_zero, hrn, runLen, runLenJ]
      simp only [hj, and_true, true_and, if_true, ne_eq, Bool.true_eq_false,
        if_false, List.drop_zero, Nat.zero_add, zero_add]
      exact hrj
    · have := flm_k_ge (x :: rest) (x :: rest) junk
      omega
  · -- non-junk head: the candidate (0,0) already has a positive run
    have hj' : junk x = false := by simpa using hj
    have hpos : runLen junk (x :: rest) (x :: rest) ≠ 0 := by
      simp [runLen, hj']
    have h00 : (0, 0) ∈ flmPairs (x :: rest) (x :: rest) :=
      flmPairs_mem (by simp) (by simp)
    have hub := (foldl_flmStep_ub (x :: rest) (x :: rest) junk
      (flmPairs (x :: rest) (x :: rest)) (0, 0, 0)).2 (0, 0) h00
    simp only [List.drop_zero] at hub
    have hge := flm_k_ge (x :: rest) (x :: rest) junk
    unfold flmBest at hge
    omega

/-- On identical sequences the recursive block decomposition matches
every character. -/
theorem matchesTotal_self_all (junk : Char → Bool) :
    ∀ n (a : List Char), a.length ≤ n → matchesTotal junk a a = a.length := by
  intro n
  induction n with
  | zero =>
    intro a ha
    have : a = [] := List.eq_nil_of_length_eq_zero (by omega)
    subst this
    exact matchesTotal_nil_left junk []
  | succ n ih =>
    intro a ha
    by_cases hnil : a = []
    · subst hnil
      exact matchesTotal_nil_left junk []
    · rw [matchesTotal_eq]
      obtain ⟨i, k, hflm⟩ := flm_self_diag a junk
      have hkpos : (find_longest_match a a junk).2.2 ≠ 0 := flm_self_pos a junk hnil
      rw [hflm] at hkpos ⊢
      simp only at hkpos
      rw [if_neg hkpos]
      obtain ⟨h1, h2⟩ := flm_ok a a junk
      rw [hflm] at h1 h2
      simp only at h1 h2
      have hL := ih (a.take i) (by
        simp only [List.length_take]
        have := min_le_left i a.length
        omega)
      have hR := ih (a.drop (i + k)) (by
        simp only [List.length_drop]
        omega)
      simp only [List.length_take, List.length_drop] at hL hR
      rw [hL, hR]
      simp only [List.length_take, List.length_drop]
      have : min i a.length = i := min_eq_left (by omega)
      omega

/-- `SequenceMatcher(None, s, s).ratio() == 1.0` for every string:
identical inputs always compare at ratio exactly 1, junk or no junk. -/
theorem sm_ratio_self_all (a : List Char) : sm_ratio a a = 1 := by
  by_cases hnil : a = []
  · subst hnil
    exact sm_ratio_nil_nil
  · unfold sm_ratio
    have hlz : a.length ≠ 0 := fun h => hnil (List.eq_nil_of_length_eq_zero h)
    rw [if_neg (by omega)]
    rw [matchesTotal_self_all (pyJunk a) a.length a le_rfl]
    have hposQ : (0 : ℚ) < (a.length : ℚ) := by
      exact_mod_cast Nat.pos_of_ne_zero hlz
    have hne : ((a.length : ℚ) + (a.length : ℚ)) ≠ 0 := by
      apply ne_of_gt
      linarith
    field_simp
    ring

/-! ## Pattern matching (`re.findall` / `re.search` / `str.count` / `in`)

Every regex in the module except the enumeration pattern is a fixed
sequence of character literals and one-character classes. -/

inductive PatElem where
  | lit (c : Char)
  | cls (cs : List Char)

/-- One pattern element against one character. -/
def patElemMatch : PatElem → Char → Bool
  | .lit c, x => x == c
  | .cls cs, x => cs.contains x

/-- A literal pattern. -/
def litP (s : String) : List PatElem := s.toList.map PatElem.lit

/-- Does the pattern match at the head of the list? -/
def patMatch : List PatElem → List Char → Bool
  | [], _ => true
  | _ :: _, [] => false
  | e :: es, c :: cs => patElemMatch e c && patMatch es cs

/-- Fuel-driven scan for `countPat` (fuel: any bound on the length). -/
def countPatGo (p : List PatElem) : ℕ → List Char → ℕ
  | _, [] => 0
  | 0, _ :: _ => 0
  | fuel + 1, c :: rest =>
    if patMatch p (c :: rest) then 1 + countPatGo p fuel (rest.drop (p.length - 1))
    else countPatGo p fuel rest

/-- `len(re.findall(p, l))` for a fixed-length pattern: non-overlapping
left-to-right scan.  (All patterns in the module are nonempty.) -/
def countPat (p : List PatElem) (l : List Char) : ℕ :=
  countPatGo p l.length l

theorem countPatGo_congr (p : List PatElem) :
    ∀ n f g (l : List Char), l.length ≤ f → l.length ≤ g → f ≤ n → g ≤ n →
      countPatGo p f l = countPatGo p g l := by
  intro n
  induction n with
  | zero =>
    intro f g l hf hg hfn hgn
    have : f = 0 := by omega
    have : g = 0 := by omega
    subst_vars
    rfl
  | succ n ih =>
    intro f g l hf hg hfn hgn
    cases l with
    | nil => cases f <;> cases g <;> rfl
    | cons c rest =>
      match f, g with
      | f + 1, g + 1 =>
        simp only [countPatGo, List.length_cons] at *
        have hd := List.length_drop (p.length - 1) rest
        by_cases hm : patMatch p (c :: rest) = true
        · rw [if_pos hm, if_pos hm,
            ih f g (rest.drop (p.length - 1)) (by omega) (by omega) (by omega) (by omega)]
        · rw [if_neg hm, if_neg hm,
            ih f g rest (by omega) (by omega) (by omega) (by omega)]

/-- The one-step unfolding of `countPat`. -/
theorem countPat_cons (p : List PatElem) (c : Char) (rest : List Char) :
    countPat p (c :: rest) =
      if patMatch p (c :: rest) then 1 + countPat p (rest.drop (p.length - 1))
      else countPat p rest := by
  unfold countPat
  simp only [List.length_cons, countPatGo]
  have hd := List.length_drop (p.length - 1) rest
  by_cases hm : patMatch p (c :: rest) = true
  · rw [if_pos hm, if_pos hm,
      countPatGo_congr p rest.length rest.length _ _ (by omega) le_rfl le_rfl (by omega)]
  · rw [if_neg hm, if_neg hm]

/-- `re.search(p, l)` succeeding (fixed-length pattern). -/
def searchPat (p : List PatElem) : List Char → Bool
  | [] => patMatch p []
  | c :: rest => patMatch p (c :: rest) || searchPat p rest

/-- Remainder of the list after the first (leftmost) match of `p`. -/
def findPatEnd (p : List PatElem) : List Char → Option (List Char)
  | [] => if patMatch p [] then some [] else none
  | c :: rest =>
    if patMatch p (c :: rest) then some ((c :: rest).drop p.length)
    else findPatEnd p rest

/-- Is the first list a prefix of the second? -/
def leadMatch : List Char → List Char → Bool
  | [], _ => true
  | _ :: _, [] => false
  | s :: ss, c :: cs => s == c && leadMatch ss cs

/-- Python `sub in l` (substring containment). -/
def containsSub (sub : List Char) : List Char → Bool
  | [] => leadMatch sub []
  | c :: rest => leadMatch sub (c :: rest) || containsSub sub rest

/-- Fuel-driven scan for `countSubstr`. -/
def countSubstrGo (sub : List Char) : ℕ → List Char → ℕ
  | _, [] => 0
  | 0, _ :: _ => 0
  | fuel + 1, c :: rest =>
    if leadMatch sub (c :: rest) then 1 + countSubstrGo sub fuel (rest.drop (sub.length - 1))
    else countSubstrGo sub fuel rest

/-- Python `l.count(sub)`: non-overlapping occurrences, scanning left to
right.  (All tokens in the module are nonempty.) -/
def countSubstr (sub : List Char) (l : List Char) : ℕ :=
  countSubstrGo sub l.length l

/-- The character class `[，,]` used by the filler patterns. -/
def commaCls : PatElem := PatElem.cls ['，', ',']

def SOURCE_TRACE_PATTERNS : List (List PatElem) :=
  [litP "引用原文", litP "原文如下", litP "据原文",
    litP "来源" ++ [PatElem.cls [':', '：']], litP "摘录如下"]

def AI_FILLER_PATTERNS : List (List PatElem) :=
  [litP "首先" ++ [commaCls], litP "其次" ++ [commaCls],
    litP "再次" ++ [commaCls], litP "最后" ++ [commaCls],
    litP "值得注意的是", litP "需要指出的是", litP "总的来说", litP "综上所述",
    litP "在当今社会", litP "在这个时代", litP "不可否认", litP "毋庸置疑",
    litP "由此可见", litP "从某种意义上说", litP "在一定程度上",
    litP "赋能", litP "助力", litP "深耕"]

/-- `count_matches(patterns, text)`: total `findall` count over a
pattern list. -/
def count_matches (ps : List (List PatElem)) (l : List Char) : ℕ :=
  (ps.map (fun p => countPat p l)).sum

/-- `re.search(r"首先[，,].*其次[，,].*最后[，,]", article, flags=re.S)`:
the three markers occur in order (with `.` matching newlines, the search
succeeds exactly when they can be chained left to right). -/
def hasEnumPattern (l : List Char) : Bool :=
  match findPatEnd (litP "首先" ++ [commaCls]) l with
  | none => false
  | some r1 =>
    match findPatEnd (litP "其次" ++ [commaCls]) r1 with
    | none => false
    | some r2 => searchPat (litP "最后" ++ [commaCls]) r2

/-! ## Token tables (module-level constants) -/

def SCENE_TOKENS : List (List Char) :=
  ["今天", "昨天", "凌晨", "早上", "中午", "晚上", "周一", "周末", "地铁",
    "办公室", "会议室", "出租屋", "厨房", "手机", "消息", "走进", "坐下",
    "抬头", "看见", "听到"].map String.toList

def COLLOQUIAL_TOKENS : List (List Char) :=
  ["你可能", "你会发现", "说白了", "讲真", "先别急", "这事儿", "你想想",
    "换句话说", "我更倾向于", "我的判断是"].map String.toList

def STANCE_TOKENS : List (List PatElem) :=
  ["我认为", "我更倾向于", "我的判断是", "我不认同", "我支持", "我反对",
    "在我看来"].map litP

def EMOTION_TOKENS : List (List Char) :=
  ["震惊", "愤怒", "难过", "心酸", "开心", "害怕", "焦虑", "兴奋", "遗憾",
    "心疼", "失望", "庆幸", "喜欢", "讨厌"].map String.toList

def ACADEMIC_TOKENS : List (List Char) :=
  ["算法", "模型", "实验", "数据集", "性能", "方法", "论文", "机制", "架构",
    "系统", "the", "model", "transformer", "attention", "dataset",
    "experiment"].map String.toList

def NARRATIVE_TOKENS : List (List Char) :=
  ["我", "我们", "他", "她", "那天", "后来", "当时", "回头", "突然",
    "然后"].map String.toList

/-- The template-opening patterns of `template_sentence_ratio`. -/
def TEMPLATE_PATTERNS : List (List PatElem) :=
  [litP "在当今", litP "值得注意的是", litP "综上所述", litP "首先",
    litP "其次", litP "最后", litP "不可否认"]

/-! ## Densities, ratios and dispersion -/

/-- `token_density(text, tokens)`: substring hits per 100 normalized
characters, with the denominator floored at 1 (`max(1, len(norm)/100)`),
and 0 on an empty normalized document. -/
def token_density (text : List Char) (tokens : List (List Char)) : ℚ :=
  let norm := normalize text
  if norm = [] then 0
  else ((tokens.map (fun t => countSubstr t norm)).sum : ℚ) /
    max 1 ((norm.length : ℚ) / 100)

/-- `lexical_diversity(text)`: distinct characters over total characters
of the normalized text; 0 on empty. -/
def lexical_diversity (text : List Char) : ℚ :=
  let norm := normalize text
  if norm = [] then 0 else ((norm.toFinset.card : ℚ)) / norm.length

/-- `sentence_token_ratio(sentences, tokens)`: fraction of sentences
containing at least one token; 0 with no sentences. -/
def sentence_token_ratio (sentences : List (List Char))
    (tokens : List (List Char)) : ℚ :=
  if sentences = [] then 0
  else ((sentences.filter (fun s => tokens.any (fun t => containsSub t s))).length : ℚ) /
    sentences.length

/-- `template_sentence_ratio(sentences)`: fraction of sentences matching
a template-opening pattern; 0 with no sentences. -/
def template_sentence_ratio (sentences : List (List Char)) : ℚ :=
  if sentences = [] then 0
  else ((sentences.filter (fun s => TEMPLATE_PATTERNS.any (fun p => searchPat p s))).length : ℚ) /
    sentences.length

/-- Python line breaks recognised by `str.splitlines()`. -/
def pyIsLineBreak (c : Char) : Bool :=
  c = '\n' || c = '\r' || c = '\u000B' || c = '\u000C' || c = '\u001C' ||
  c = '\u001D' || c = '\u001E' || c = '\u0085' || c = ' ' || c = ' '

/-- Fuel-driven scan for `pySplitLines`. -/
def pySplitLinesGo : ℕ → List Char → List (List Char)
  | _, [] => []
  | 0, _ :: _ => []
  | fuel + 1, l =>
    match l.drop (l.takeWhile (fun c => !(pyIsLineBreak c))).length with
    | [] => [l.takeWhile (fun c => !(pyIsLineBreak c))]
    | '\r' :: '\n' :: rest2 =>
      l.takeWhile (fun c => !(pyIsLineBreak c)) :: pySplitLinesGo fuel rest2
    | _ :: rest2 =>
      l.takeWhile (fun c => !(pyIsLineBreak c)) :: pySplitLinesGo fuel rest2

/-- `str.splitlines()`: split on line breaks (`\r\n` counts once), with
no trailing empty line. -/
def pySplitLines (l : List Char) : List (List Char) :=
  pySplitLinesGo l.length l

/-- Leading characters of the outline pattern `^[一二三四五六七八九十0-9]+`. -/
def outlineLead (c : Char) : Bool :=
  c = '一' || c = '二' || c = '三' || c = '四' || c = '五' || c = '六' ||
  c = '七' || c = '八' || c = '九' || c = '十' || ('0' ≤ c && c ≤ '9')

/-- The outline marker class `[、.．)]`. -/
def outlineMark (c : Char) : Bool :=
  c = '、' || c = '.' || c = '．' || c = ')'

/-- `re.match(r"^[一二三四五六七八九十0-9]+[、.．)]", s)` succeeding.
The classes are disjoint, so the greedy leading run is exact. -/
def isOutlineLine (s : List Char) : Bool :=
  match s.drop (s.takeWhile outlineLead).length with
  | m :: _ => !((s.takeWhile outlineLead).isEmpty) && outlineMark m
  | [] => false

/-- What a line contributes to the heading signature: markdown headings
stripped of `^#+\s*`, or numbered outline lines verbatim. -/
def headingLineContent (line : List Char) : Option (List Char) :=
  match hs : pyStrip line with
  | '#' :: _ => some (((pyStrip line).dropWhile (fun c => c = '#')).dropWhile pyIsSpace)
  | _ =>
    if isOutlineLine (pyStrip line) then some (pyStrip line) else none

/-- `" | ".join(...)`. -/
def joinSep (sep : List Char) : List (List Char) → List Char
  | [] => []
  | [x] => x
  | x :: xs => x ++ sep ++ joinSep sep xs

/-- `heading_signature(text)`: collected heading/outline lines joined
with `" | "`. -/
def heading_signature (text : List Char) : List Char :=
  joinSep " | ".toList ((pySplitLines text).filterMap headingLineContent)

/-- ASCII lowercasing (`str.lower()` restricted to the characters the
token tables can meet: the academic tokens are ASCII or Chinese). -/
def pyLower (c : Char) : Char :=
  if 'A' ≤ c ∧ c ≤ 'Z' then Char.ofNat (c.toNat + 32) else c

/-! ## Dispersion statistics -/

/-- Mean of a list of natural lengths, as a rational. -/
def meanQ (values : List ℕ) : ℚ := (values.sum : ℚ) / values.length

/-- The `var` local of `stddev`: mean squared deviation (divisor `n`);
0 on the empty list. -/
def varianceQ (values : List ℕ) : ℚ :=
  if values = [] then 0
  else ((values.map (fun (v : ℕ) => ((v : ℚ) - meanQ values) ^ 2)).sum) / values.length

/-- `stddev(values) < c` for a positive constant `c`, decided exactly on
the variance (`sqrt v < c ↔ v < c²`). -/
def stddevLtB (values : List ℕ) (c : ℚ) : Bool :=
  decide (varianceQ values < c ^ 2)

/-- `coef_var(values) < c` for a positive constant `c`, decided exactly:
`coef_var` is 0 on an empty list or zero mean, else `stddev/mean`. -/
def coefVarLtB (values : List ℕ) (c : ℚ) : Bool :=
  if values = [] then decide (0 < c)
  else if meanQ values = 0 then decide (0 < c)
  else decide (varianceQ values < c ^ 2 * meanQ values ^ 2)

theorem sm_ratio_le_one (a b : List Char) : sm_ratio a b ≤ 1 := by
  unfold sm_ratio
  split
  · exact le_refl 1
  · next hT =>
    have hpos : (0 : ℚ) < (a.length : ℚ) + (b.length : ℚ) := by
      have := Nat.pos_of_ne_zero hT
      exact_mod_cast this
    rw [div_le_one (by exact_mod_cast hpos)]
    have hM := matchesTotal_le (pyJunk b) (a.length + b.length) a b le_rfl
    have hMa := le_trans hM (min_le_left a.length b.length)
    have hMb := le_trans hM (min_le_right a.length b.length)
    have : 2 * matchesTotal (pyJunk b) a b ≤ a.length + b.length := by omega
    exact_mod_cast this

/-! ## The signals of `evaluate` -/

/-- `"\n".join(sources)`. -/
def joinNL (sources : List (List Char)) : List Char := joinSep ['\n'] sources

/-- The n-gram overlap signal: `jaccard(article_ngrams, source_ngrams)`. -/
def overlapOf (article : List Char) (sources : List (List Char)) : ℚ :=
  jaccard (char_ngrams article) (char_ngrams (joinNL sources))

/-- The running best `SequenceMatcher` ratio of one article sentence
against all source sentences (`best = 0.0`, replaced on strict
improvement). -/
def bestRatio (s : List Char) (ts : List (List Char)) : ℚ :=
  ts.foldl (fun best t => if best < sm_ratio s t then sm_ratio s t else best) 0

/-- `sentence_reuse(article_sentences, source_sentences)`:
`(reuse_ratio, novelty_ratio)`; `(0.0, 1.0)` when either side has no
sentences.  A sentence is reused when its best ratio is ≥ 0.85 and
novel when its best ratio is < 0.60. -/
def sentence_reuse (article_sentences source_sentences : List (List Char)) : ℚ × ℚ :=
  if article_sentences = [] ∨ source_sentences = [] then (0, 1)
  else
    (((article_sentences.filter
        (fun s => (0.85 : ℚ) ≤ bestRatio s source_sentences)).length : ℚ) /
      article_sentences.length,
     ((article_sentences.filter
        (fun s => bestRatio s source_sentences < (0.60 : ℚ))).length : ℚ) /
      article_sentences.length)

/-- The structural-similarity signal: 0.0 with no sources, else the
maximum heading-signature ratio over the individual sources. -/
def structureSimOf (article : List Char) (sources : List (List Char)) : ℚ :=
  match sources.map
    (fun src => sm_ratio (heading_signature article) (heading_signature src)) with
  | [] => 0
  | r :: rs => rs.foldl max r

def traceHitsOf (article : List Char) : ℕ :=
  count_matches SOURCE_TRACE_PATTERNS article

def fillerHitsOf (article : List Char) : ℕ :=
  count_matches AI_FILLER_PATTERNS article

/-- `sent_lengths`: whitespace-stripped character length per sentence. -/
def sentLensOf (article : List Char) : List ℕ :=
  (split_sentences article).map (fun s => (normalize s).length)

/-- `para_lengths`: whitespace-stripped character length per paragraph. -/
def paraLensOf (article : List Char) : List ℕ :=
  (split_paragraphs article).map (fun p => (normalize p).length)

/-! ## The scoring formulas (lines 322–412 of the source) -/

/-- The originality score before rounding: penalties, clamp, then the
strict-source-trace override. -/
def originalityRawOf (article : List Char) (sources : List (List Char))
    (strict_trace : Bool) : ℚ :=
  let overlap := overlapOf article sources
  let ru := sentence_reuse (split_sentences article) (split_sentences (joinNL sources))
  let structure_sim := structureSimOf article sources
  let trace_hits := traceHitsOf article
  let originality := clamp100 (100 - overlap * 40 - ru.1 * 25 - structure_sim * 15 -
    (if 0 < trace_hits then 10 else 0) + ru.2 * 10)
  if strict_trace = true ∧ 0 < trace_hits then 0 else originality

/-- The structural-uniformity penalty accumulated from the two
coefficient-of-variation tests (before any domain scaling). -/
def uniformityPenaltyOf (sentLens paraLens : List ℕ) : ℚ :=
  (if coefVarLtB sentLens 0.28 then 12
    else if coefVarLtB sentLens 0.38 then 6 else 0) +
  (if coefVarLtB paraLens 0.35 then 10
    else if coefVarLtB paraLens 0.50 then 5 else 0)

/-- The lexical-diversity penalty (before any domain scaling). -/
def diversityPenaltyOf (lexDiv : ℚ) : ℚ :=
  if lexDiv < 0.11 then 12 else if lexDiv < 0.14 then 6 else 0

/-- The AI-tone score (lines 359–397): filler and template bases,
uniformity/diversity penalties (scaled by 0.45/0.5 for the academic
label), the domain-sensitive style penalty, clamped to [0, 100]. -/
def ai_tone_formula (fillerHits : ℕ) (tplRatio : ℚ) (hasEnum : Bool)
    (sentLens paraLens : List ℕ) (lexDiv emotionDensity colloquialRatio : ℚ)
    (label : String) : ℚ :=
  let base_filler := min 35 ((fillerHits : ℚ) * 3.5)
  let base_template := min 20 (tplRatio * 50) + (if hasEnum = true then 20 else 0)
  let u0 := uniformityPenaltyOf sentLens paraLens
  let d0 := diversityPenaltyOf lexDiv
  let style := if label = "academic" then (if emotionDensity < 0.06 then 2 else 0)
    else (if emotionDensity < 0.15 then 8 else 0) +
      (if colloquialRatio < 0.05 then 5 else 0)
  let u := if label = "academic" then u0 * 0.45 else u0
  let d := if label = "academic" then d0 * 0.5 else d0
  clamp100 (base_filler + base_template + u + d + style)

/-- The domain classifier (lines 352–357). -/
def domain_label_of (academicDensity narrativeDensity : ℚ) : String :=
  if (0.45 : ℚ) ≤ academicDensity then "academic"
  else if (0.45 : ℚ) ≤ narrativeDensity then "narrative"
  else "general"

/-- The humanity score (lines 399–412): base 50, capped bonuses, then
the dispersion/template/AI deductions, clamped to [0, 100].  The
`sentence_variation < 6` and `< 9` branches on `stddev` are decided
exactly on the variance. -/
def humanity_formula (sceneDensity colloquialRatio : ℚ) (stanceHits : ℕ)
    (emotionDensity : ℚ) (sentLens : List ℕ) (tplRatio aiScore : ℚ) : ℚ :=
  let h1 := 50 + min 20 (sceneDensity * 8.0) + min 20 (colloquialRatio * 80.0) +
    min 15 ((stanceHits : ℚ) * 4.0) + min 10 (emotionDensity * 3.0)
  let h2 := h1 - (if stddevLtB sentLens 6 then 20
    else if stddevLtB sentLens 9 then 10 else 0)
  let h3 := h2 - (if (0.2 : ℚ) < tplRatio then 10 else 0)
  let h4 := h3 - (if (40 : ℚ) < aiScore then 10 else 0)
  clamp100 h4

/-- The risk band (lines 415–420). -/
def risk_level_of (ai : ℚ) : String :=
  if 70 ≤ ai then "high" else if 40 ≤ ai then "medium" else "low"

/-! ## Per-article signal shorthands -/

def sceneDensityOf (a : List Char) : ℚ := token_density a SCENE_TOKENS

def colloquialRatioOf (a : List Char) : ℚ :=
  sentence_token_ratio (split_sentences a) COLLOQUIAL_TOKENS

def stanceHitsOf (a : List Char) : ℕ := count_matches STANCE_TOKENS a

def emotionDensityOf (a : List Char) : ℚ := token_density a EMOTION_TOKENS

def tplRatioOf (a : List Char) : ℚ := template_sentence_ratio (split_sentences a)

def academicDensityOf (a : List Char) : ℚ :=
  token_density (a.map pyLower) ACADEMIC_TOKENS

def narrativeDensityOf (a : List Char) : ℚ := token_density a NARRATIVE_TOKENS

def lexDivOf (a : List Char) : ℚ := lexical_diversity a

def domainLabelOf (a : List Char) : String :=
  domain_label_of (academicDensityOf a) (narrativeDensityOf a)

/-- The AI-tone score of an article (unrounded). -/
def aiRawOf (a : List Char) : ℚ :=
  ai_tone_formula (fillerHitsOf a) (tplRatioOf a) (hasEnumPattern a)
    (sentLensOf a) (paraLensOf a) (lexDivOf a) (emotionDensityOf a)
    (colloquialRatioOf a) (domainLabelOf a)

/-- The humanity score of an article (unrounded). -/
def humanityRawOf (a : List Char) : ℚ :=
  humanity_formula (sceneDensityOf a) (colloquialRatioOf a) (stanceHitsOf a)
    (emotionDensityOf a) (sentLensOf a) (tplRatioOf a) (aiRawOf a)

/-- The output record of `evaluate`.  The three sqrt-valued diagnostic
fields of the Python dataclass (`sentence_variation`, `sentence_cv`,
`paragraph_cv`) are omitted: no claim reads them, and their only uses
inside the scoring are embedded as exact squared comparisons. -/
structure Metrics where
  originality_score : ℚ
  ai_tone_score : ℚ
  humanity_score : ℚ
  ngram_overlap : ℚ
  sentence_reuse_ratio : ℚ
  structure_similarity : ℚ
  novelty_ratio : ℚ
  source_trace_hits : ℕ
  ai_filler_hits : ℕ
  scene_density : ℚ
  colloquial_ratio : ℚ
  stance_hits : ℕ
  emotion_density : ℚ
  template_sentence_ratio : ℚ
  lexical_diversity : ℚ
  academic_density : ℚ
  narrative_density : ℚ
  domain_label : String
  ai_risk_level : String
  passed : Bool

/-- `evaluate(article, sources, min_originality, max_ai, min_humanity,
strict_trace)` (lines 295–445).  Scores are rounded to 2 decimals and
signals to 4 for the returned record; the gate decision compares the
unrounded scores. -/
def evaluate (article : String) (sources : List String)
    (min_originality max_ai min_humanity : ℚ) (strict_trace : Bool) : Metrics :=
  let a := article.toList
  let srcs := sources.map String.toList
  let originality := originalityRawOf a srcs strict_trace
  let ai_score := aiRawOf a
  let humanity := humanityRawOf a
  let ru := sentence_reuse (split_sentences a) (split_sentences (joinNL srcs))
  { originality_score := pyRound 2 originality
    ai_tone_score := pyRound 2 ai_score
    humanity_score := pyRound 2 humanity
    ngram_overlap := pyRound 4 (overlapOf a srcs)
    sentence_reuse_ratio := pyRound 4 ru.1
    structure_similarity := pyRound 4 (structureSimOf a srcs)
    novelty_ratio := pyRound 4 ru.2
    source_trace_hits := traceHitsOf a
    ai_filler_hits := fillerHitsOf a
    scene_density := pyRound 4 (sceneDensityOf a)
    colloquial_ratio := pyRound 4 (colloquialRatioOf a)
    stance_hits := stanceHitsOf a
    emotion_density := pyRound 4 (emotionDensityOf a)
    template_sentence_ratio := pyRound 4 (tplRatioOf a)
    lexical_diversity := pyRound 4 (lexDivOf a)
    academic_density := pyRound 4 (academicDensityOf a)
    narrative_density := pyRound 4 (narrativeDensityOf a)
    domain_label := domainLabelOf a
    ai_risk_level := risk_level_of ai_score
    passed := decide (min_originality ≤ originality ∧ ai_score ≤ max_ai ∧
      min_humanity ≤ humanity) }

/-! ## The real-valued dispersion functions (for the claims about
`stddev` and `coef_var` themselves) -/

/-- `stddev(values)` of the source: square root of the mean squared
deviation (divisor `n`); 0.0 on the empty list. -/
noncomputable def stddev (values : List ℕ) : ℝ :=
  if values = [] then 0
  else Real.sqrt
    ((values.map (fun (v : ℕ) => ((v : ℝ) - (values.sum : ℝ) / values.length) ^ 2)).sum /
      values.length)

/-- `coef_var(values)` of the source: `stddev / mean`, 0.0 on the empty
list or when the mean is 0. -/
noncomputable def coef_var (values : List ℕ) : ℝ :=
  if values = [] then 0
  else if ((values.sum : ℝ) / values.length) = 0 then 0
  else stddev values / ((values.sum : ℝ) / values.length)

/-! ## Supporting lemmas for the claims -/

theorem pyRound_zero (k : ℕ) : pyRound k 0 = 0 := by
  unfold pyRound roundHalfEven
  norm_num

theorem pyRound_one (k : ℕ) : pyRound k 1 = 1 := by
  unfold pyRound roundHalfEven
  have hc : ((10 ^ k : ℤ) : ℚ) = (10 : ℚ) ^ k := by push_cast; ring
  rw [one_mul, ← hc, Int.floor_intCast, sub_self]
  rw [if_pos (by norm_num)]
  rw [div_self (by positivity)]

theorem originalityRawOf_mem (a : List Char) (srcs : List (List Char)) (st : Bool) :
    0 ≤ originalityRawOf a srcs st ∧ originalityRawOf a srcs st ≤ 100 := by
  constructor <;> (simp only [originalityRawOf]; split)
  · norm_num
  · exact clamp100_nonneg _
  · norm_num
  · exact clamp100_le_100 _

theorem ai_tone_formula_mem (fillerHits : ℕ) (tplRatio : ℚ) (hasEnum : Bool)
    (sentLens paraLens : List ℕ) (lexDiv emotionDensity colloquialRatio : ℚ)
    (label : String) :
    0 ≤ ai_tone_formula fillerHits tplRatio hasEnum sentLens paraLens lexDiv
        emotionDensity colloquialRatio label ∧
      ai_tone_formula fillerHits tplRatio hasEnum sentLens paraLens lexDiv
        emotionDensity colloquialRatio label ≤ 100 := by
  unfold ai_tone_formula
  exact ⟨clamp100_nonneg _, clamp100_le_100 _⟩

theorem humanity_formula_mem (sceneDensity colloquialRatio : ℚ) (stanceHits : ℕ)
    (emotionDensity : ℚ) (sentLens : List ℕ) (tplRatio aiScore : ℚ) :
    0 ≤ humanity_formula sceneDensity colloquialRatio stanceHits emotionDensity
        sentLens tplRatio aiScore ∧
      humanity_formula sceneDensity colloquialRatio stanceHits emotionDensity
        sentLens tplRatio aiScore ≤ 100 := by
  unfold humanity_formula
  exact ⟨clamp100_nonneg _, clamp100_le_100 _⟩

theorem pyRound_mem_0_100 {k : ℕ} {x : ℚ} (h0 : 0 ≤ x) (h1 : x ≤ 100) :
    0 ≤ pyRound k x ∧ pyRound k x ≤ 100 := by
  refine ⟨pyRound_nonneg h0, ?_⟩
  have h := pyRound_le (k := k) (N := (100 : ℤ)) (by exact_mod_cast h1)
  exact_mod_cast h

/-! ## The claims -/

/-- C1: for every article string, every list of source strings, and
every threshold configuration, the three scores in the `Metrics`
returned by `evaluate` — `originality_score`, `ai_tone_score` and
`humanity_score` — each lie in the closed interval [0, 100]. -/
theorem c1_scores_within_range (article : String) (sources : List String)
    (mo ma mh : ℚ) (st : Bool) :
    (0 ≤ (evaluate article sources mo ma mh st).originality_score ∧
      (evaluate article sources mo ma mh st).originality_score ≤ 100) ∧
    (0 ≤ (evaluate article sources mo ma mh st).ai_tone_score ∧
      (evaluate article sources mo ma mh st).ai_tone_score ≤ 100) ∧
    (0 ≤ (evaluate article sources mo ma mh st).humanity_score ∧
      (evaluate article sources mo ma mh st).humanity_score ≤ 100) := by
  refine ⟨?_, ?_, ?_⟩
  · have h := originalityRawOf_mem article.toList (sources.map String.toList) st
    exact pyRound_mem_0_100 h.1 h.2
  · have h : 0 ≤ aiRawOf article.toList ∧ aiRawOf article.toList ≤ 100 :=
      ai_tone_formula_mem _ _ _ _ _ _ _ _ _
    exact pyRound_mem_0_100 h.1 h.2
  · have h : 0 ≤ humanityRawOf article.toList ∧ humanityRawOf article.toList ≤ 100 :=
      humanity_formula_mem _ _ _ _ _ _ _
    exact pyRound_mem_0_100 h.1 h.2

/-- C2 (amended): the `passed` boolean of the `Metrics` returned by
`evaluate` is true exactly when the three unrounded scores — the values
the record's score fields are the 2-decimal roundings of — satisfy the
thresholds: `originality ≥ min_originality`, `ai_tone ≤ max_ai_tone`
and `humanity ≥ min_humanity`. -/
theorem c2_passed_iff_unrounded_scores (article : String) (sources : List String)
    (mo ma mh : ℚ) (st : Bool) :
    (evaluate article sources mo ma mh st).passed = true ↔
      (mo ≤ originalityRawOf article.toList (sources.map String.toList) st ∧
        aiRawOf article.toList ≤ ma ∧ mh ≤ humanityRawOf article.toList) := by
  have h : (evaluate article sources mo ma mh st).passed =
      decide (mo ≤ originalityRawOf article.toList (sources.map String.toList) st ∧
        aiRawOf article.toList ≤ ma ∧ mh ≤ humanityRawOf article.toList) := rfl
  rw [h]
  exact decide_eq_true_iff

set_option maxRecDepth 40000 in
unseal Rat.mul Rat.add Rat.sub Rat.inv Rat.ofScientific in
/-- C2, counterexample to the claim as stated: on this article (three
10-character sentences, one template hit) with `max_ai_tone = 51.668`,
the gate passes — the unrounded AI-tone score 155/3 ≈ 51.6667 is below
the threshold — yet the rounded `ai_tone_score` stored in the same
`Metrics` record is 51.67 > 51.668, so "passed iff the record's score
fields satisfy the thresholds" is false. -/
theorem c2_counterexample :
    (evaluate "首先要把这份材料看完。接着还需把重点标记好。收尾时再补充几条注释。"
      [] 0 51.668 0 false).passed = true ∧
    ¬((evaluate "首先要把这份材料看完。接着还需把重点标记好。收尾时再补充几条注释。"
      [] 0 51.668 0 false).ai_tone_score ≤ 51.668) :=
  ⟨by decide, by decide⟩

/-- C3: for every article string and every threshold configuration,
calling `evaluate` with an empty source list yields
`ngram_overlap = 0.0`, `sentence_reuse_ratio = 0.0`,
`novelty_ratio = 1.0` and `structure_similarity = 0.0`. -/
theorem c3_empty_sources_signals (article : String) (mo ma mh : ℚ) (st : Bool) :
    (evaluate article [] mo ma mh st).ngram_overlap = 0 ∧
    (evaluate article [] mo ma mh st).sentence_reuse_ratio = 0 ∧
    (evaluate article [] mo ma mh st).novelty_ratio = 1 ∧
    (evaluate article [] mo ma mh st).structure_similarity = 0 := by
  have hov : overlapOf article.toList [] = 0 := by
    unfold overlapOf
    have h : char_ngrams (joinNL []) = ∅ := rfl
    rw [h]
    unfold jaccard
    simp
  have hru : sentence_reuse (split_sentences article.toList)
      (split_sentences (joinNL [])) = (0, 1) := by
    have h : split_sentences (joinNL []) = [] := rfl
    rw [h]
    unfold sentence_reuse
    simp
  refine ⟨?_, ?_, ?_, ?_⟩
  · show pyRound 4 (overlapOf article.toList []) = 0
    rw [hov]
    exact pyRound_zero 4
  · show pyRound 4 (sentence_reuse (split_sentences article.toList)
      (split_sentences (joinNL []))).1 = 0
    rw [hru]
    exact pyRound_zero 4
  · show pyRound 4 (sentence_reuse (split_sentences article.toList)
      (split_sentences (joinNL []))).2 = 1
    rw [hru]
    exact pyRound_one 4
  · show pyRound 4 (structureSimOf article.toList []) = 0
    rw [show structureSimOf article.toList [] = 0 from rfl]
    exact pyRound_zero 4

theorem countPat_pos_of_search (p : List PatElem) (hp : p ≠ []) :
    ∀ l, searchPat p l = true → 0 < countPat p l := by
  intro l
  induction l with
  | nil =>
    intro h
    obtain ⟨e, es, rfl⟩ := List.exists_cons_of_ne_nil hp
    simp [searchPat, patMatch] at h
  | cons c rest ih =>
    intro h
    rw [countPat_cons]
    by_cases hm : patMatch p (c :: rest) = true
    · rw [if_pos hm]
      omega
    · rw [if_neg hm]
      apply ih
      simp only [searchPat, Bool.or_eq_true] at h
      rcases h with h | h
      · exact absurd h hm
      · exact h

theorem patMatch_trace_of_leadMatch :
    ∀ l, leadMatch "来源：".toList l = true →
      patMatch (litP "来源" ++ [PatElem.cls [':', '：']]) l = true := by
  intro l h
  match l with
  | [] => simp [leadMatch] at h
  | [c1] =>
    simp only [leadMatch, Bool.and_eq_true, beq_iff_eq] at h
    exact absurd h.2 (by simp [leadMatch])
  | [c1, c2] =>
    simp only [leadMatch, Bool.and_eq_true, beq_iff_eq] at h
    exact absurd h.2.2 (by simp [leadMatch])
  | c1 :: c2 :: c3 :: rest =>
    have h' : '来' = c1 ∧ '源' = c2 ∧ '：' = c3 := by
      simpa [leadMatch] using h
    obtain ⟨h1, h2, h3⟩ := h'
    subst h1
    subst h2
    subst h3
    rfl

theorem searchPat_trace_of_contains :
    ∀ l, containsSub "来源：".toList l = true →
      searchPat (litP "来源" ++ [PatElem.cls [':', '：']]) l = true := by
  intro l
  induction l with
  | nil =>
    intro h
    simp [containsSub, leadMatch] at h
  | cons c rest ih =>
    intro h
    simp only [containsSub, Bool.or_eq_true] at h
    simp only [searchPat, Bool.or_eq_true]
    rcases h with h | h
    · exact Or.inl (patMatch_trace_of_leadMatch _ h)
    · exact Or.inr (ih h)

theorem traceHits_pos_of_contains {a : List Char}
    (h : containsSub "来源：".toList a = true) : 0 < traceHitsOf a := by
  have hsearch := searchPat_trace_of_contains a h
  have hcp := countPat_pos_of_search (litP "来源" ++ [PatElem.cls [':', '：']])
    (by simp [litP]) a hsearch
  have hmem : countPat (litP "来源" ++ [PatElem.cls [':', '：']]) a ∈
      SOURCE_TRACE_PATTERNS.map (fun p => countPat p a) := by
    simp only [SOURCE_TRACE_PATTERNS, List.map_cons, List.map_nil]
    exact List.mem_cons_of_mem _ (List.mem_cons_of_mem _ (List.mem_cons_of_mem _
      (List.mem_cons_self _ _)))
  have hle := List.single_le_sum (l := SOURCE_TRACE_PATTERNS.map (fun p => countPat p a))
    (fun x _ => Nat.zero_le x) _ hmem
  unfold traceHitsOf count_matches
  omega

/-- C4: the originality score equals
`100 − 40·overlap − 25·reuse − 15·structure − (10 if trace hits) + 10·novelty`
clamped to [0, 100] (the stored field being its 2-decimal rounding), and
with `strict_source_trace` enabled any source-trace phrase — in
particular the literal substring "来源：" — forces the score to 0. -/
theorem c4_originality_formula (article : String) (sources : List String)
    (mo ma mh : ℚ) (st : Bool) :
    ((evaluate article sources mo ma mh st).originality_score =
      pyRound 2 (originalityRawOf article.toList (sources.map String.toList) st)) ∧
    (originalityRawOf article.toList (sources.map String.toList) st =
      if st = true ∧ 0 < traceHitsOf article.toList then 0
      else clamp100 (100
        - 40 * overlapOf article.toList (sources.map String.toList)
        - 25 * (sentence_reuse (split_sentences article.toList)
            (split_sentences (joinNL (sources.map String.toList)))).1
        - 15 * structureSimOf article.toList (sources.map String.toList)
        - (if 0 < traceHitsOf article.toList then 10 else 0)
        + 10 * (sentence_reuse (split_sentences article.toList)
            (split_sentences (joinNL (sources.map String.toList)))).2)) ∧
    (st = true → containsSub "来源：".toList article.toList = true →
      (evaluate article sources mo ma mh st).originality_score = 0) := by
  refine ⟨rfl, ?_, ?_⟩
  · simp only [originalityRawOf]
    by_cases h : st = true ∧ 0 < traceHitsOf article.toList
    · rw [if_pos h, if_pos h]
    · rw [if_neg h, if_neg h]
      unfold clamp100
      congr 2
      ring
  · intro hst hsub
    have htr := traceHits_pos_of_contains hsub
    show pyRound 2 (originalityRawOf article.toList (sources.map String.toList) st) = 0
    have h0 : originalityRawOf article.toList (sources.map String.toList) st = 0 := by
      simp only [originalityRawOf]
      rw [if_pos ⟨hst, htr⟩]
    rw [h0]
    exact pyRound_zero 2

/-- The density the spec's sentence describes: hits divided by
`len(norm)/100`, with only the empty document guarded (no flooring of
the denominator at 1). -/
def token_density_claimed (text : List Char) (tokens : List (List Char)) : ℚ :=
  let norm := normalize text
  if norm = [] then 0
  else ((tokens.map (fun t => countSubstr t norm)).sum : ℚ) / ((norm.length : ℚ) / 100)

set_option maxRecDepth 40000 in
unseal Rat.mul Rat.add Rat.sub Rat.inv Rat.ofScientific in
/-- C5, counterexample to the claim as stated: on the two-character
document "手机" with the scene tokens, the code's density is 1 hit with
denominator `max(1, 0.02) = 1`, while "hits divided by
normalized-length/100" would give 50. -/
theorem c5_counterexample :
    token_density "手机".toList SCENE_TOKENS = 1 ∧
    token_density_claimed "手机".toList SCENE_TOKENS = 50 ∧
    ¬(token_density "手机".toList SCENE_TOKENS =
      token_density_claimed "手机".toList SCENE_TOKENS) :=
  ⟨by decide, by decide, by decide⟩

/-- C5 (amended): token density is the total substring hit count divided
by `max(1, normalized_length/100)`: hits per 100 normalized characters
only for documents of at least 100 normalized characters; shorter
documents divide by 1 (the density is the raw hit count), and an empty
normalized document has density 0. -/
theorem c5_token_density_characterisation (text : List Char)
    (tokens : List (List Char)) :
    (normalize text = [] → token_density text tokens = 0) ∧
    ((normalize text).length < 100 → token_density text tokens =
      ((tokens.map (fun t => countSubstr t (normalize text))).sum : ℚ)) ∧
    (100 ≤ (normalize text).length → token_density text tokens =
      ((tokens.map (fun t => countSubstr t (normalize text))).sum : ℚ) * 100 /
        (normalize text).length) := by
  refine ⟨?_, ?_, ?_⟩
  · intro h
    unfold token_density
    rw [if_pos h]
  · intro h
    unfold token_density
    by_cases hne : normalize text = []
    · rw [if_pos hne, hne]
      have hz : ∀ t ∈ tokens, countSubstr t ([] : List Char) = 0 := by
        intro t _
        cases t <;> rfl
      have : (tokens.map (fun t => countSubstr t ([] : List Char))).sum = 0 := by
        rw [List.sum_eq_zero]
        intro x hx
        obtain ⟨t, ht, rfl⟩ := List.mem_map.mp hx
        exact hz t ht
      rw [this]
      norm_num
    · rw [if_neg hne]
      have hmax : max (1 : ℚ) ((normalize text).length / 100) = 1 := by
        rw [max_eq_left]
        rw [div_le_one (by norm_num)]
        exact_mod_cast le_of_lt h
      rw [hmax, div_one]
  · intro h
    unfold token_density
    have hne : normalize text ≠ [] := by
      intro hnil
      rw [hnil] at h
      simp at h
    rw [if_neg hne]
    have hpos : (0 : ℚ) < ((normalize text).length : ℚ) := by
      have : 0 < (normalize text).length := by omega
      exact_mod_cast this
    have hmax : max (1 : ℚ) ((normalize text).length / 100) =
        ((normalize text).length : ℚ) / 100 := by
      rw [max_eq_right]
      rw [le_div_iff₀ (by norm_num)]
      have : (100 : ℚ) ≤ ((normalize text).length : ℚ) := by exact_mod_cast h
      linarith
    rw [hmax]
    field_simp

theorem clamp100_mono {x y : ℚ} (h : x ≤ y) : clamp100 x ≤ clamp100 y :=
  max_le_max le_rfl (min_le_min le_rfl h)

/-- Closed form of `ai_tone_formula` with the domain branches exposed. -/
theorem ai_tone_formula_eq (fillerHits : ℕ) (tplRatio : ℚ) (hasEnum : Bool)
    (sentLens paraLens : List ℕ) (lexDiv emotionDensity colloquialRatio : ℚ)
    (label : String) :
    ai_tone_formula fillerHits tplRatio hasEnum sentLens paraLens lexDiv
        emotionDensity colloquialRatio label =
      clamp100 (min 35 ((fillerHits : ℚ) * 3.5) +
        (min 20 (tplRatio * 50) + (if hasEnum = true then 20 else 0)) +
        (if label = "academic" then uniformityPenaltyOf sentLens paraLens * 0.45
          else uniformityPenaltyOf sentLens paraLens) +
        (if label = "academic" then diversityPenaltyOf lexDiv * 0.5
          else diversityPenaltyOf lexDiv) +
        (if label = "academic" then (if emotionDensity < 0.06 then 2 else 0)
          else (if emotionDensity < 0.15 then 8 else 0) +
            (if colloquialRatio < 0.05 then 5 else 0))) := by
  unfold ai_tone_formula
  ring_nf

/-- C7: the domain label is "academic" iff the academic-token density is
≥ 0.45, otherwise "narrative" iff the narrative-token density is ≥ 0.45,
otherwise "general"; and exactly for the label "academic" the AI-tone
uniformity penalty is scaled by 0.45 and the diversity penalty by 0.5
before summation (any other label keeps them unscaled). -/
theorem c7_domain_label_academic_scaling (article : String) (sources : List String)
    (mo ma mh : ℚ) (st : Bool) :
    ((evaluate article sources mo ma mh st).domain_label = "academic" ↔
      (0.45 : ℚ) ≤ academicDensityOf article.toList) ∧
    (¬((0.45 : ℚ) ≤ academicDensityOf article.toList) →
      ((evaluate article sources mo ma mh st).domain_label = "narrative" ↔
        (0.45 : ℚ) ≤ narrativeDensityOf article.toList)) ∧
    (¬((0.45 : ℚ) ≤ academicDensityOf article.toList) →
      ¬((0.45 : ℚ) ≤ narrativeDensityOf article.toList) →
      (evaluate article sources mo ma mh st).domain_label = "general") ∧
    (∀ (fillerHits : ℕ) (tplRatio : ℚ) (hasEnum : Bool) (sentLens paraLens : List ℕ)
      (lexDiv emotionDensity colloquialRatio : ℚ),
      ai_tone_formula fillerHits tplRatio hasEnum sentLens paraLens lexDiv
          emotionDensity colloquialRatio "academic" =
        clamp100 (min 35 ((fillerHits : ℚ) * 3.5) +
          (min 20 (tplRatio * 50) + (if hasEnum = true then 20 else 0)) +
          uniformityPenaltyOf sentLens paraLens * 0.45 +
          diversityPenaltyOf lexDiv * 0.5 +
          (if emotionDensity < 0.06 then 2 else 0))) ∧
    (∀ (label : String), label ≠ "academic" →
      ∀ (fillerHits : ℕ) (tplRatio : ℚ) (hasEnum : Bool) (sentLens paraLens : List ℕ)
        (lexDiv emotionDensity colloquialRatio : ℚ),
      ai_tone_formula fillerHits tplRatio hasEnum sentLens paraLens lexDiv
          emotionDensity colloquialRatio label =
        clamp100 (min 35 ((fillerHits : ℚ) * 3.5) +
          (min 20 (tplRatio * 50) + (if hasEnum = true then 20 else 0)) +
          uniformityPenaltyOf sentLens paraLens +
          diversityPenaltyOf lexDiv +
          ((if emotionDensity < 0.15 then 8 else 0) +
            (if colloquialRatio < 0.05 then 5 else 0)))) := by
  have hl : (evaluate article sources mo ma mh st).domain_label =
      domain_label_of (academicDensityOf article.toList)
        (narrativeDensityOf article.toList) := rfl
  refine ⟨?_, ?_, ?_, ?_, ?_⟩
  · rw [hl]
    unfold domain_label_of
    by_cases h : (0.45 : ℚ) ≤ academicDensityOf article.toList
    · rw [if_pos h]
      exact iff_of_true rfl h
    · rw [if_neg h]
      split <;> exact iff_of_false (by decide) h
  · intro h
    rw [hl]
    unfold domain_label_of
    rw [if_neg h]
    by_cases h2 : (0.45 : ℚ) ≤ narrativeDensityOf article.toList
    · rw [if_pos h2]
      exact iff_of_true rfl h2
    · rw [if_neg h2]
      exact iff_of_false (by decide) h2
  · intro h h2
    rw [hl]
    unfold domain_label_of
    rw [if_neg h, if_neg h2]
  · intro fillerHits tplRatio hasEnum sentLens paraLens lexDiv emoD collR
    rw [ai_tone_formula_eq]
    simp only [eq_self_iff_true, if_true]
  · intro label hlabel fillerHits tplRatio hasEnum sentLens paraLens lexDiv emoD collR
    rw [ai_tone_formula_eq]
    rw [if_neg hlabel, if_neg hlabel, if_neg hlabel]

/-- C8: over the AI-tone scoring formula, increasing the filler-phrase
hit count while holding every other signal fixed never decreases the
resulting score. -/
theorem c8_ai_tone_monotone_in_filler_hits (fh1 fh2 : ℕ) (hle : fh1 ≤ fh2)
    (tplRatio : ℚ) (hasEnum : Bool) (sentLens paraLens : List ℕ)
    (lexDiv emotionDensity colloquialRatio : ℚ) (label : String) :
    ai_tone_formula fh1 tplRatio hasEnum sentLens paraLens lexDiv emotionDensity
      colloquialRatio label ≤
    ai_tone_formula fh2 tplRatio hasEnum sentLens paraLens lexDiv emotionDensity
      colloquialRatio label := by
  rw [ai_tone_formula_eq, ai_tone_formula_eq]
  apply clamp100_mono
  have hcast : (fh1 : ℚ) ≤ (fh2 : ℚ) := by exact_mod_cast hle
  have hbf : min (35 : ℚ) ((fh1 : ℚ) * 3.5) ≤ min 35 ((fh2 : ℚ) * 3.5) :=
    min_le_min le_rfl (mul_le_mul_of_nonneg_right hcast (by norm_num))
  linarith

set_option maxRecDepth 40000 in
unseal Rat.mul Rat.add Rat.sub Rat.inv Rat.ofScientific in
/-- C7 witness: an article made of academic tokens is labelled
"academic", and a short article with no register tokens is labelled
"general". -/
theorem c7_witness :
    (evaluate "算法模型实验数据集架构系统。" [] 70 30 60 false).domain_label =
      "academic" ∧
    (evaluate "短文" [] 70 30 60 false).domain_label = "general" :=
  ⟨(c7_domain_label_academic_scaling "算法模型实验数据集架构系统。" [] 70 30 60
      false).1.mpr (by decide),
    (c7_domain_label_academic_scaling "短文" [] 70 30 60 false).2.2.1
      (by decide) (by decide)⟩

set_option maxRecDepth 40000 in
unseal Rat.mul Rat.add Rat.sub Rat.inv Rat.ofScientific in
/-- C8 witness: a concrete monotonicity instance at filler counts 0 ≤ 3. -/
theorem c8_witness :
    (0 : ℕ) ≤ 3 ∧
    ai_tone_formula 0 0 false [10, 20] [30] 0.5 0 0 "general" ≤
      ai_tone_formula 3 0 false [10, 20] [30] 0.5 0 0 "general" :=
  ⟨by decide,
    c8_ai_tone_monotone_in_filler_hits 0 3 (by decide) 0 false [10, 20] [30]
      0.5 0 0 "general"⟩

set_option maxRecDepth 40000 in
unseal Rat.mul Rat.add Rat.sub Rat.inv Rat.ofScientific in
/-- C4 witness: with `strict_source_trace` on, an article containing
"来源：" scores originality 0. -/
theorem c4_witness :
    containsSub "来源：".toList "据称来源：某公众号的文章内容。".toList = true ∧
    (evaluate "据称来源：某公众号的文章内容。" [] 70 30 60 true).originality_score = 0 :=
  ⟨by decide,
    (c4_originality_formula "据称来源：某公众号的文章内容。" [] 70 30 60 true).2.2
      rfl (by decide)⟩

set_option maxRecDepth 40000 in
unseal Rat.mul Rat.add Rat.sub Rat.inv Rat.ofScientific in
/-- C5 witness: a document shorter than 100 normalized characters has
density equal to its raw hit count. -/
theorem c5_witness :
    (normalize "今天在办公室看手机消息。".toList).length < 100 ∧
    token_density "今天在办公室看手机消息。".toList SCENE_TOKENS =
      ((SCENE_TOKENS.map
        (fun t => countSubstr t (normalize "今天在办公室看手机消息。".toList))).sum : ℚ) :=
  ⟨by decide,
    (c5_token_density_characterisation "今天在办公室看手机消息。".toList
      SCENE_TOKENS).2.1 (by decide)⟩

/-! ## Article-vs-itself and empty-signature lemmas (C9, C10) -/

theorem foldl_max_bounds (l : List ℚ) :
    ∀ x : ℚ, x ≤ l.foldl max x ∧ ∀ y ∈ l, y ≤ l.foldl max x := by
  induction l with
  | nil => intro x; exact ⟨le_refl x, by simp⟩
  | cons z zs ih =>
    intro x
    simp only [List.foldl_cons]
    obtain ⟨h1, h2⟩ := ih (max x z)
    refine ⟨le_trans (le_max_left x z) h1, ?_⟩
    intro y hy
    rcases List.mem_cons.mp hy with rfl | hy
    · exact le_trans (le_max_right x y) h1
    · exact h2 y hy

theorem foldl_max_le (l : List ℚ) :
    ∀ x b : ℚ, x ≤ b → (∀ y ∈ l, y ≤ b) → l.foldl max x ≤ b := by
  induction l with
  | nil => intro x b hx _; exact hx
  | cons z zs ih =>
    intro x b hx hl
    simp only [List.foldl_cons]
    exact ih (max x z) b (max_le hx (hl z (by simp))) (fun y hy => hl y (by simp [hy]))

theorem bestRatio_bounds (s : List Char) (ts : List (List Char)) :
    ∀ init : ℚ,
      init ≤ ts.foldl (fun best t => if best < sm_ratio s t then sm_ratio s t else best) init ∧
      ∀ t ∈ ts, sm_ratio s t ≤
        ts.foldl (fun best t => if best < sm_ratio s t then sm_ratio s t else best) init := by
  induction ts with
  | nil => intro init; exact ⟨le_refl _, by simp⟩
  | cons u us ih =>
    intro init
    simp only [List.foldl_cons]
    obtain ⟨h1, h2⟩ := ih (if init < sm_ratio s u then sm_ratio s u else init)
    have hstep : init ≤ (if init < sm_ratio s u then sm_ratio s u else init) ∧
        sm_ratio s u ≤ (if init < sm_ratio s u then sm_ratio s u else init) := by
      split <;> constructor <;> first | omega | linarith
    refine ⟨le_trans hstep.1 h1, ?_⟩
    intro t ht
    rcases List.mem_cons.mp ht with rfl | ht
    · exact le_trans hstep.2 h1
    · exact h2 t ht

theorem bestRatio_ge_of_mem {s t : List Char} {ts : List (List Char)} (h : t ∈ ts) :
    sm_ratio s t ≤ bestRatio s ts :=
  (bestRatio_bounds s ts 0).2 t h

/-- An article-sentence list compared against itself: every sentence is
reused (best ratio 1 ≥ 0.85) and none is novel. -/
theorem sentence_reuse_self (L : List (List Char)) (hL : L ≠ []) :
    sentence_reuse L L = (1, 0) := by
  unfold sentence_reuse
  rw [if_neg (by simp [hL])]
  have hbest : ∀ s ∈ L, (1 : ℚ) ≤ bestRatio s L := by
    intro s hs
    have := bestRatio_ge_of_mem (s := s) hs
    rw [sm_ratio_self_all s] at this
    exact this
  have hfilter1 : L.filter (fun s => decide ((0.85 : ℚ) ≤ bestRatio s L)) = L := by
    rw [List.filter_eq_self]
    intro s hs
    rw [decide_eq_true_iff]
    linarith [hbest s hs]
  have hfilter2 : L.filter (fun s => decide (bestRatio s L < (0.60 : ℚ))) = [] := by
    rw [List.filter_eq_nil_iff]
    intro s hs
    rw [decide_eq_true_iff]
    push_neg
    linarith [hbest s hs]
  have hlen : (L.length : ℚ) ≠ 0 := by
    have : L.length ≠ 0 := fun h => hL (List.eq_nil_of_length_eq_zero h)
    exact_mod_cast this
  have h1 : (((L.filter (fun s => decide ((0.85 : ℚ) ≤ bestRatio s L))).length : ℚ) /
      L.length) = 1 := by
    rw [hfilter1, div_self hlen]
  have h2 : (((L.filter (fun s => decide (bestRatio s L < (0.60 : ℚ)))).length : ℚ) /
      L.length) = 0 := by
    rw [hfilter2]
    simp
  rw [Prod.mk.injEq]
  exact ⟨h1, h2⟩

theorem jaccard_self {A : Finset (List Char)} (h : A ≠ ∅) : jaccard A A = 1 := by
  have hc : A.card ≠ 0 := Finset.card_ne_zero.mpr (Finset.nonempty_iff_ne_empty.mpr h)
  unfold jaccard
  rw [if_neg (by push_neg; exact ⟨h, h⟩)]
  simp only [Finset.union_self, Finset.inter_self]
  rw [if_neg hc]
  exact div_self (by exact_mod_cast hc)

theorem char_ngrams_ne_empty {a : List Char} (h : normalize a ≠ []) :
    char_ngrams a ≠ ∅ := by
  by_cases hlen : (normalize a).length < 5
  · have heq : char_ngrams a = {normalize a} := by
      simp only [char_ngrams]
      rw [if_pos hlen, if_neg h]
    rw [heq]
    exact Finset.singleton_ne_empty _
  · have hmem : ((normalize a).drop 0).take 5 ∈ char_ngrams a := by
      simp only [char_ngrams]
      rw [if_neg hlen, List.mem_toFinset]
      apply List.mem_map_of_mem
      rw [List.mem_range]
      omega
    exact Finset.ne_empty_of_mem hmem

theorem dropWhile_head_false {p : Char → Bool} :
    ∀ (l : List Char) {c : Char} {t : List Char},
      l.dropWhile p = c :: t → p c = false := by
  intro l
  induction l with
  | nil => intro c t h; simp [List.dropWhile] at h
  | cons x xs ih =>
    intro c t h
    rw [List.dropWhile_cons] at h
    split at h
    · exact ih h
    · next hpx =>
      injection h with h1 _
      subst h1
      simpa using hpx

theorem pyStrip_subset {l : List Char} {c : Char} (h : c ∈ pyStrip l) : c ∈ l := by
  unfold pyStrip at h
  rw [List.mem_reverse] at h
  have h2 := (List.dropWhile_sublist (l := (l.dropWhile pyIsSpace).reverse)
    (p := pyIsSpace)).mem h
  rw [List.mem_reverse] at h2
  exact (List.dropWhile_sublist (l := l) (p := pyIsSpace)).mem h2

theorem pyStrip_head_not_space {l : List Char} {c : Char} {t : List Char}
    (h : pyStrip l = c :: t) : pyIsSpace c = false := by
  unfold pyStrip at h
  set Y := l.dropWhile pyIsSpace with hY
  have hpre : (Y.reverse.dropWhile pyIsSpace).reverse <+: Y := by
    have hsuf : Y.reverse.dropWhile pyIsSpace <:+ Y.reverse :=
      List.dropWhile_suffix _
    have := List.reverse_prefix.mpr hsuf
    rwa [List.reverse_reverse] at this
  rw [h] at hpre
  obtain ⟨u, hu⟩ := hpre
  have hYc : l.dropWhile pyIsSpace = c :: (t ++ u) := by
    rw [← hY, ← hu]
    simp
  exact dropWhile_head_false l hYc

theorem splitOnSep_chars {p : Char → Bool} :
    ∀ {l : List Char} {frag : List Char}, frag ∈ splitOnSep p l →
      ∀ c ∈ frag, c ∈ l := by
  intro l
  induction l with
  | nil =>
    intro frag hfrag c hc
    simp only [splitOnSep, List.mem_singleton] at hfrag
    subst hfrag
    simp at hc
  | cons x xs ih =>
    intro frag hfrag c hc
    simp only [splitOnSep] at hfrag
    split at hfrag
    · rcases List.mem_cons.mp hfrag with rfl | hfrag
      · simp at hc
      · exact List.mem_cons_of_mem x (ih hfrag c hc)
    · split at hfrag
      · next f fs heq =>
        rcases List.mem_cons.mp hfrag with rfl | hfrag
        · rcases List.mem_cons.mp hc with rfl | hc
          · exact List.mem_cons_self _ _
          · have hf : f ∈ splitOnSep p xs := by
              rw [heq]
              exact List.mem_cons_self _ _
            exact List.mem_cons_of_mem x (ih hf c hc)
        · have hfs : frag ∈ splitOnSep p xs := by
            rw [heq]
            exact List.mem_cons_of_mem f hfrag
          exact List.mem_cons_of_mem x (ih hfs c hc)
      · rcases List.mem_cons.mp hfrag with rfl | hfrag
        · rcases List.mem_cons.mp hc with rfl | hc
          · exact List.mem_cons_self _ _
          · simp at hc
        · simp at hfrag

theorem normalize_ne_nil_of_sentences {a : List Char}
    (h : split_sentences a ≠ []) : normalize a ≠ [] := by
  obtain ⟨s, hs⟩ := List.exists_mem_of_ne_nil _ h
  unfold split_sentences at hs
  rw [List.mem_filter] at hs
  obtain ⟨hmem, hlen⟩ := hs
  rw [List.mem_map] at hmem
  obtain ⟨frag, hfrag, hstrip⟩ := hmem
  have hlen10 : 10 ≤ s.length := by simpa using hlen
  obtain ⟨c, t, rfl⟩ : ∃ c t, s = c :: t := by
    cases s with
    | nil => simp at hlen10
    | cons c t => exact ⟨c, t, rfl⟩
  have hcs : pyIsSpace c = false := pyStrip_head_not_space hstrip
  have hcf : c ∈ frag := pyStrip_subset (by rw [hstrip]; exact List.mem_cons_self _ _)
  have hca : c ∈ a := splitOnSep_chars hfrag c hcf
  have hcn : c ∈ normalize a := by
    unfold normalize
    rw [List.mem_filter]
    exact ⟨hca, by simp [hcs]⟩
  exact List.ne_nil_of_mem hcn

theorem overlapOf_self {a : List Char} (h : normalize a ≠ []) :
    overlapOf a [a] = 1 := by
  unfold overlapOf
  rw [show joinNL [a] = a from rfl]
  exact jaccard_self (char_ngrams_ne_empty h)

theorem structureSimOf_self (a : List Char) : structureSimOf a [a] = 1 := by
  unfold structureSimOf
  simp only [List.map_cons, List.map_nil, List.foldl_nil]
  exact sm_ratio_self_all _

/-- C9 (amended): for every article with at least one segmented
sentence, evaluating it against the single source list `[article]`
yields n-gram overlap exactly 1.0, sentence reuse ratio exactly 1.0,
novelty ratio 0.0, structure similarity 1.0 (the two identical heading
signatures compare at ratio 1), and an originality score of at most 20
— far below the default threshold of 70, though not "near 0": the
formula loses 40 + 25 + 15 points and gains no novelty bonus. -/
theorem c9_article_vs_itself (article : String)
    (hs : split_sentences article.toList ≠ []) (mo ma mh : ℚ) (st : Bool) :
    (evaluate article [article] mo ma mh st).ngram_overlap = 1 ∧
    (evaluate article [article] mo ma mh st).sentence_reuse_ratio = 1 ∧
    (evaluate article [article] mo ma mh st).novelty_ratio = 0 ∧
    (evaluate article [article] mo ma mh st).structure_similarity = 1 ∧
    (evaluate article [article] mo ma mh st).originality_score ≤ 20 := by
  have hnorm := normalize_ne_nil_of_sentences hs
  have hov := overlapOf_self hnorm
  have hj : joinNL [article.toList] = article.toList := rfl
  have hru : sentence_reuse (split_sentences article.toList)
      (split_sentences (joinNL [article.toList])) = (1, 0) := by
    rw [hj]
    exact sentence_reuse_self _ hs
  have hss := structureSimOf_self article.toList
  have hraw : originalityRawOf article.toList [article.toList] st ≤ 20 := by
    simp only [originalityRawOf]
    split
    · norm_num
    · rw [hov, hru, hss]
      apply clamp100_le_of_le (by norm_num)
      split <;> norm_num
  refine ⟨?_, ?_, ?_, ?_, ?_⟩
  · show pyRound 4 (overlapOf article.toList [article.toList]) = 1
    rw [hov]
    exact pyRound_one 4
  · show pyRound 4 (sentence_reuse (split_sentences article.toList)
      (split_sentences (joinNL [article.toList]))).1 = 1
    rw [hru]
    exact pyRound_one 4
  · show pyRound 4 (sentence_reuse (split_sentences article.toList)
      (split_sentences (joinNL [article.toList]))).2 = 0
    rw [hru]
    exact pyRound_zero 4
  · show pyRound 4 (structureSimOf article.toList [article.toList]) = 1
    rw [hss]
    exact pyRound_one 4
  · show pyRound 2 (originalityRawOf article.toList [article.toList] st) ≤ 20
    have h := pyRound_le (k := 2) (N := (20 : ℤ)) (by exact_mod_cast hraw)
    exact_mod_cast h

set_option maxRecDepth 40000 in
unseal Rat.mul Rat.add Rat.sub Rat.inv Rat.ofScientific in
/-- C9, counterexample to the claim as stated: for the nonempty article
"短文本" (3 characters, hence no segmented sentence of length ≥ 10)
evaluated against itself, the sentence reuse ratio is 0.0 — not
approximately 1.0 — and the originality score is 55, not near 0.  A
character-identical source does not generally drive reuse toward 1 or
originality toward 0. -/
theorem c9_counterexample :
    "短文本" ≠ "" ∧
    (evaluate "短文本" ["短文本"] 70 30 60 false).sentence_reuse_ratio = 0 ∧
    (evaluate "短文本" ["短文本"] 70 30 60 false).originality_score = 55 :=
  ⟨by decide, by decide, by decide⟩

set_option maxRecDepth 40000 in
unseal Rat.mul Rat.add Rat.sub Rat.inv Rat.ofScientific in
/-- C9 witness: a one-sentence article against itself. -/
theorem c9_witness :
    split_sentences "这是一段用来验证的完整句子。".toList ≠ [] ∧
    (evaluate "这是一段用来验证的完整句子。" ["这是一段用来验证的完整句子。"]
      70 30 60 false).ngram_overlap = 1 ∧
    (evaluate "这是一段用来验证的完整句子。" ["这是一段用来验证的完整句子。"]
      70 30 60 false).sentence_reuse_ratio = 1 ∧
    (evaluate "这是一段用来验证的完整句子。" ["这是一段用来验证的完整句子。"]
      70 30 60 false).originality_score ≤ 20 := by
  have h := c9_article_vs_itself "这是一段用来验证的完整句子。" (by decide) 70 30 60 false
  exact ⟨by decide, h.1, h.2.1, h.2.2.2.2⟩

theorem structureSimOf_eq_one {a : List Char} {srcs : List (List Char)}
    {src : List Char} (hmem : src ∈ srcs)
    (hA : heading_signature a = []) (hsrc : heading_signature src = []) :
    structureSimOf a srcs = 1 := by
  unfold structureSimOf
  cases hm : srcs.map (fun s => sm_ratio (heading_signature a) (heading_signature s)) with
  | nil =>
    exfalso
    have := List.mem_map_of_mem
      (fun s => sm_ratio (heading_signature a) (heading_signature s)) hmem
    rw [hm] at this
    simp at this
  | cons r rs =>
    show List.foldl max r rs = 1
    have hone : (1 : ℚ) ∈ r :: rs := by
      rw [← hm]
      have hval : sm_ratio (heading_signature a) (heading_signature src) = 1 := by
        rw [hA, hsrc]
        exact sm_ratio_nil_nil
      have hmm : sm_ratio (heading_signature a) (heading_signature src) ∈
          srcs.map (fun s => sm_ratio (heading_signature a) (heading_signature s)) :=
        List.mem_map.mpr ⟨src, hmem, rfl⟩
      exact hval ▸ hmm
    have hle : ∀ y ∈ r :: rs, y ≤ 1 := by
      intro y hy
      rw [← hm] at hy
      obtain ⟨s, _, rfl⟩ := List.mem_map.mp hy
      exact sm_ratio_le_one _ _
    obtain ⟨h1, h2⟩ := foldl_max_bounds rs r
    apply le_antisymm
    · exact foldl_max_le rs r 1 (hle r (by simp)) (fun y hy => hle y (by simp [hy]))
    · rcases List.mem_cons.mp hone with hr | hrs
      · exact hr.le.trans h1
      · exact h2 1 hrs

/-- C10: when the article's heading signature and at least one source's
heading signature are both empty (no heading or outline line on either
side), the structural similarity is exactly 1.0 — the fuzzy ratio of two
empty strings is 1 — and the originality formula therefore subtracts the
full 15-point structure penalty although no outline shape was compared. -/
theorem c10_empty_signature_full_penalty (article : String) (sources : List String)
    (mo ma mh : ℚ) (st : Bool) (src : String) (hmem : src ∈ sources)
    (hA : heading_signature article.toList = [])
    (hsrc : heading_signature src.toList = []) :
    (evaluate article sources mo ma mh st).structure_similarity = 1 ∧
    structureSimOf article.toList (sources.map String.toList) = 1 ∧
    originalityRawOf article.toList (sources.map String.toList) st =
      (if st = true ∧ 0 < traceHitsOf article.toList then 0
       else clamp100 (100
         - overlapOf article.toList (sources.map String.toList) * 40
         - (sentence_reuse (split_sentences article.toList)
             (split_sentences (joinNL (sources.map String.toList)))).1 * 25
         - 15
         - (if 0 < traceHitsOf article.toList then 10 else 0)
         + (sentence_reuse (split_sentences article.toList)
             (split_sentences (joinNL (sources.map String.toList)))).2 * 10)) := by
  have hss : structureSimOf article.toList (sources.map String.toList) = 1 :=
    structureSimOf_eq_one (List.mem_map_of_mem String.toList hmem) hA hsrc
  refine ⟨?_, hss, ?_⟩
  · show pyRound 4 (structureSimOf article.toList (sources.map String.toList)) = 1
    rw [hss]
    exact pyRound_one 4
  · simp only [originalityRawOf]
    rw [hss]
    by_cases h : st = true ∧ 0 < traceHitsOf article.toList
    · rw [if_pos h, if_pos h]
    · rw [if_neg h, if_neg h]
      unfold clamp100
      congr 2
      ring

set_option maxRecDepth 40000 in
unseal Rat.mul Rat.add Rat.sub Rat.inv Rat.ofScientific in
/-- C10 witness: a heading-free article against one heading-free source
gets structural similarity 1. -/
theorem c10_witness :
    heading_signature "普通正文内容".toList = [] ∧
    heading_signature "另一个普通文本".toList = [] ∧
    (evaluate "普通正文内容" ["另一个普通文本"] 70 30 60 false).structure_similarity = 1 :=
  ⟨by decide, by decide,
    (c10_empty_signature_full_penalty "普通正文内容" ["另一个普通文本"] 70 30 60 false
      "另一个普通文本" (by decide) (by decide) (by decide)).1⟩

/-! ## The dispersion claim (C6) -/

theorem varianceQ_nonneg (values : List ℕ) : 0 ≤ varianceQ values := by
  unfold varianceQ
  split
  · exact le_refl 0
  · apply div_nonneg
    · apply List.sum_nonneg
      intro x hx
      obtain ⟨v, _, rfl⟩ := List.mem_map.mp hx
      positivity
    · positivity

theorem rat_cast_sum_sq (values : List ℕ) (m : ℚ) :
    (((values.map (fun (v : ℕ) => ((v : ℚ) - m) ^ 2)).sum : ℚ) : ℝ) =
    (values.map (fun (v : ℕ) => ((v : ℝ) - ((m : ℚ) : ℝ)) ^ 2)).sum := by
  induction values with
  | nil => simp
  | cons x xs ih =>
    rw [List.map_cons, List.map_cons, List.sum_cons, List.sum_cons, Rat.cast_add, ih]
    congr 1
    push_cast
    ring

theorem meanQ_cast (values : List ℕ) :
    ((meanQ values : ℚ) : ℝ) = (values.sum : ℝ) / (values.length : ℝ) := by
  unfold meanQ
  rw [Rat.cast_div, Rat.cast_natCast, Rat.cast_natCast]

theorem stddev_sq_eq (values : List ℕ) :
    0 ≤ stddev values ∧ stddev values ^ 2 = ((varianceQ values : ℚ) : ℝ) := by
  unfold stddev varianceQ
  by_cases h : values = []
  · rw [if_pos h, if_pos h]
    norm_num
  · rw [if_neg h, if_neg h]
    have harg : (0 : ℝ) ≤
        (values.map (fun (v : ℕ) => ((v : ℝ) - (values.sum : ℝ) / values.length) ^ 2)).sum /
          values.length := by
      apply div_nonneg
      · apply List.sum_nonneg
        intro x hx
        obtain ⟨v, _, rfl⟩ := List.mem_map.mp hx
        positivity
      · positivity
    refine ⟨Real.sqrt_nonneg _, ?_⟩
    rw [Real.sq_sqrt harg]
    rw [Rat.cast_div, rat_cast_sum_sq values (meanQ values)]
    simp only [meanQ_cast]
    push_cast
    ring

theorem stddev_lt_iff (values : List ℕ) (c : ℚ) (hc : 0 < c) :
    (stddev values < ((c : ℚ) : ℝ)) ↔ stddevLtB values c = true := by
  obtain ⟨hnn, hsq⟩ := stddev_sq_eq values
  unfold stddevLtB
  rw [decide_eq_true_iff]
  constructor
  · intro h
    have hpow : stddev values ^ 2 < ((c : ℚ) : ℝ) ^ 2 := by nlinarith
    rw [hsq] at hpow
    have : ((varianceQ values : ℚ) : ℝ) < (((c ^ 2 : ℚ)) : ℝ) := by push_cast; linarith [hpow]
    exact_mod_cast this
  · intro h
    have hpow : ((varianceQ values : ℚ) : ℝ) < (((c ^ 2 : ℚ)) : ℝ) := by exact_mod_cast h
    rw [← hsq] at hpow
    push_cast at hpow
    have hcR : (0 : ℝ) < ((c : ℚ) : ℝ) := by exact_mod_cast hc
    nlinarith [hpow, hnn, hcR]

theorem meanQ_nonneg (values : List ℕ) : 0 ≤ meanQ values := by
  unfold meanQ
  positivity

theorem coef_var_lt_iff (values : List ℕ) (c : ℚ) (hc : 0 < c) :
    (coef_var values < ((c : ℚ) : ℝ)) ↔ coefVarLtB values c = true := by
  have hcR : (0 : ℝ) < ((c : ℚ) : ℝ) := by exact_mod_cast hc
  unfold coef_var coefVarLtB
  by_cases h : values = []
  · rw [if_pos h, if_pos h]
    simp [hcR, hc]
  · rw [if_neg h, if_neg h]
    have hlenpos : 0 < values.length := List.length_pos.mpr h
    have hmcast := meanQ_cast values
    by_cases hm : meanQ values = 0
    · rw [if_pos (by rw [← hmcast, hm]; norm_num), if_pos hm]
      simp [hcR, hc]
    · have hmR : ((values.sum : ℝ) / (values.length : ℝ)) ≠ 0 := by
        rw [← hmcast]
        exact_mod_cast hm
      rw [if_neg hmR, if_neg hm]
      rw [decide_eq_true_iff]
      have hmpos : 0 < meanQ values := lt_of_le_of_ne (meanQ_nonneg values) (Ne.symm hm)
      have hmRpos : (0 : ℝ) < (values.sum : ℝ) / (values.length : ℝ) := by
        rw [← hmcast]
        exact_mod_cast hmpos
      obtain ⟨hnn, hsq⟩ := stddev_sq_eq values
      rw [div_lt_iff₀ hmRpos]
      constructor
      · intro hlt
        have hprod : (0 : ℝ) < ((c : ℚ) : ℝ) * ((values.sum : ℝ) / (values.length : ℝ)) :=
          mul_pos hcR hmRpos
        have hpow : stddev values ^ 2 <
            (((c : ℚ) : ℝ) * ((values.sum : ℝ) / (values.length : ℝ))) ^ 2 := by nlinarith
        rw [hsq, ← hmcast] at hpow
        have : ((varianceQ values : ℚ) : ℝ) < (((c ^ 2 * meanQ values ^ 2 : ℚ)) : ℝ) := by
          push_cast
          nlinarith [hpow]
        exact_mod_cast this
      · intro hlt
        have hpow : ((varianceQ values : ℚ) : ℝ) <
            (((c ^ 2 * meanQ values ^ 2 : ℚ)) : ℝ) := by exact_mod_cast hlt
        rw [← hsq] at hpow
        have hmm : ((meanQ values : ℚ) : ℝ) = (values.sum : ℝ) / (values.length : ℝ) :=
          hmcast
        have hpow2 : stddev values ^ 2 <
            (((c : ℚ) : ℝ) * ((values.sum : ℝ) / (values.length : ℝ))) ^ 2 := by
          rw [← hmm]
          push_cast at hpow ⊢
          nlinarith [hpow]
        have hprod : (0 : ℝ) < ((c : ℚ) : ℝ) * ((values.sum : ℝ) / (values.length : ℝ)) :=
          mul_pos hcR hmRpos
        nlinarith [hpow2, hnn, hprod]

/-- What C6 asserts of one length list: `stddev` is the square root of
the mean squared deviation (its square is the `var` of the source, and
it is nonnegative; 0 on the empty list), `coef_var` is `stddev/mean`
with the 0 conventions for an empty list or zero mean, and the exact
squared comparisons used by `evaluate` decide the two real signals. -/
def dispersionSpec (vals : List ℕ) : Prop :=
  (0 ≤ stddev vals ∧ stddev vals ^ 2 = ((varianceQ vals : ℚ) : ℝ)) ∧
  (vals = [] → stddev vals = 0 ∧ coef_var vals = 0) ∧
  (vals ≠ [] →
    ((vals.sum : ℝ) / (vals.length : ℝ) = 0 → coef_var vals = 0) ∧
    ((vals.sum : ℝ) / (vals.length : ℝ) ≠ 0 →
      coef_var vals = stddev vals / ((vals.sum : ℝ) / (vals.length : ℝ)))) ∧
  (∀ c : ℚ, 0 < c → ((stddev vals < ((c : ℚ) : ℝ)) ↔ stddevLtB vals c = true) ∧
    ((coef_var vals < ((c : ℚ) : ℝ)) ↔ coefVarLtB vals c = true))

theorem dispersionSpec_all (vals : List ℕ) : dispersionSpec vals := by
  refine ⟨⟨(stddev_sq_eq vals).1, (stddev_sq_eq vals).2⟩, ?_, ?_, ?_⟩
  · intro h
    constructor
    · unfold stddev
      rw [if_pos h]
    · unfold coef_var
      rw [if_pos h]
  · intro h
    constructor
    · intro hm
      unfold coef_var
      rw [if_neg h, if_pos hm]
    · intro hm
      unfold coef_var
      rw [if_neg h, if_neg hm]
  · intro c hc
    exact ⟨stddev_lt_iff vals c hc, coef_var_lt_iff vals c hc⟩

/-- C6: for every article, over both the per-sentence and the
per-paragraph whitespace-stripped character lengths, the dispersion
signals are the standard deviation of the lengths (the square root of
the mean squared deviation, 0.0 on an empty list) and the coefficient
of variation equals that standard deviation divided by the mean, with
0.0 when the mean is 0 or the length list is empty; the squared
rational comparisons `evaluate` uses decide these real signals exactly. -/
theorem c6_dispersion_signals (article : String) :
    dispersionSpec (sentLensOf article.toList) ∧
    dispersionSpec (paraLensOf article.toList) :=
  ⟨dispersionSpec_all _, dispersionSpec_all _⟩

set_option maxRecDepth 40000 in
unseal Rat.mul Rat.add Rat.sub Rat.inv Rat.ofScientific in
/-- C6 witness: the three equal sentence lengths of a concrete article
have standard deviation below 6 (the humanity branch threshold). -/
theorem c6_witness :
    (0 : ℚ) < 6 ∧
    stddev (sentLensOf
      "首先要把这份材料看完。接着还需把重点标记好。收尾时再补充几条注释。".toList) <
      (((6 : ℚ)) : ℝ) :=
  ⟨by norm_num,
    (((c6_dispersion_signals
      "首先要把这份材料看完。接着还需把重点标记好。收尾时再补充几条注释。").1).2.2.2
      6 (by norm_num)).1.mpr (by decide)⟩

end QG
